import Mathlib

/-!
A shallow embedding of the sokoban push-puzzle program (`src/main.rs`) and
proofs about it.  The game moves a player bunny on a grid of tiles, pushing
sleepy bunnies onto bed tiles; a breadth-first solver searches the space of
entity-position vectors.

Modelling conventions:
* Rust `usize` becomes `Nat`; `saturating_sub` is `Nat` subtraction and
  `saturating_add` is `Nat` addition (the saturation bound `usize::MAX` is
  unreachable for any indexable board).
* Recursive functions of the source (`move_bunny`, `move_bunny_solve`, the
  solver's `while` loop and path reconstruction) take an explicit fuel
  argument.  A `none` result models an execution that does not return
  normally (a panic such as `expect`/out-of-range indexing, or running out
  of fuel, which over-approximates the source's unbounded recursion).
* `HashSet`/`HashMap`/`VecDeque` are modelled by lists with the operations
  the source actually uses (membership, first-match lookup, prepend-insert,
  pop-front / push-back).
-/

namespace Sokoban

/-- Possible moves (`enum Move`). -/
inductive Move
  | up
  | down
  | left
  | right

deriving instance DecidableEq, Repr for Move

/-- Possible tile states (`enum Tile`): `Tree` (wall), `Grass` (floor), `Bed` (goal). -/
inductive Tile
  | tree
  | grass
  | bed

deriving instance DecidableEq, Repr for Tile

/-- `type Board = Vec<Vec<Tile>>`: row then column, down from top-left. -/
abbrev Board : Type := List (List Tile)

/-- `type Bunny = (usize, usize)`: entity state, a (row, column) position. -/
abbrev Bunny : Type := Nat × Nat

/-- `struct PreviousState`: previous game state, for history. -/
structure PreviousState where
  move_no : Nat
  bunnies : List Bunny

deriving instance DecidableEq, Repr for PreviousState

/-- `struct State`: game state. -/
structure State where
  board : Board
  bunny_starts : List Bunny
  beds : List Bunny
  bunnies : List Bunny
  level_no : Nat
  move_no : Nat
  history : List PreviousState
  won : Bool

deriving instance DecidableEq, Repr for State

/-- `struct SolveStats`: autosolver statistics. -/
structure SolveStats where
  iters : Nat
  queue_len : Nat

deriving instance DecidableEq, Repr for SolveStats

/-- `const PUSH_MULTIPLE: bool = false`. -/
def PUSH_MULTIPLE : Bool := false

/-- `const PLAYER_INDEX: usize = 0`. -/
def PLAYER_INDEX : Nat := 0

/-- The destination computation shared by `move_bunny` and `move_bunny_solve`:
one cell in direction `m`, with `saturating_sub`/`saturating_add` semantics. -/
def dest_of (bunny : Bunny) (m : Move) : Bunny :=
  match m with
  | .up => (bunny.1 - 1, bunny.2)
  | .down => (bunny.1 + 1, bunny.2)
  | .left => (bunny.1, bunny.2 - 1)
  | .right => (bunny.1, bunny.2 + 1)

/-- Total tile lookup `self.board.get(p.0).and_then(|r| r.get(p.1))`;
`none` when the position is out of bounds. -/
def tile_at (board : Board) (p : Bunny) : Option Tile :=
  match board[p.1]? with
  | none => none
  | some row => row[p.2]?

/-- `self.bunnies.iter().position(|bunny| dest == *bunny)`: index of the first
bunny at `dest`. -/
def position (dest : Bunny) : List Bunny → Option Nat
  | [] => none
  | b :: bs => if b = dest then some 0 else (position dest bs).map (fun i => i + 1)

/-- The commit at the end of `move_bunny`'s success path: for the player,
push a history snapshot of the pre-move bunny vector and the current move
counter, then increment the counter; in all cases write `dest` into slot
`bunny_index`. -/
def commit_move (s1 : State) (current_state : List Bunny) (bunny_index : Nat)
    (dest : Bunny) : State :=
  if bunny_index = PLAYER_INDEX then
    { s1 with
      history := s1.history ++ [⟨s1.move_no, current_state⟩],
      move_no := s1.move_no + 1,
      bunnies := s1.bunnies.set bunny_index dest }
  else
    { s1 with bunnies := s1.bunnies.set bunny_index dest }

/-- `fn move_bunny(&mut self, bunny_index: usize, m: Move) -> bool`, with the
mutated state threaded explicitly.  `some (b, s')` is a normal return of `b`
leaving the state at `s'`; `none` is a non-returning execution (the
`expect` panic on a bad index, or unbounded recursion). -/
def move_bunny : Nat → State → Nat → Move → Option (Bool × State)
  | 0, _, _, _ => none
  | fuel + 1, s, bunny_index, m =>
    match s.bunnies[bunny_index]? with
    | none => none
    | some bunny =>
      let dest := dest_of bunny m
      match tile_at s.board dest with
      | none => some (false, s)
      | some .tree => some (false, s)
      | some .grass | some .bed =>
        let current_state := s.bunnies
        match position dest s.bunnies with
        | none => some (true, commit_move s current_state bunny_index dest)
        | some bunny_in_the_way_index =>
          if PUSH_MULTIPLE = false ∧ bunny_index ≠ PLAYER_INDEX then
            some (false, s)
          else
            match move_bunny fuel s bunny_in_the_way_index m with
            | none => none
            | some (false, s1) => some (false, s1)
            | some (true, s1) => some (true, commit_move s1 current_state bunny_index dest)

/-- `fn check_win(&mut self)`: set `won` to "all sleepy bunnies in bed".
`none` models the `expect` panic when the bunny vector is empty (the slice
`get(1..0)` is `None`). -/
def check_win (s : State) : Option State :=
  if 1 ≤ s.bunnies.length then
    some { s with won := (s.bunnies.drop 1).all (fun pos => s.beds.contains pos) }
  else none

/-- `fn move_bunny_solve(&self, bunnies, bunny_index, m) -> Option<Vec<Bunny>>`:
the non-mutating move used by the solver, which skips the bounds check on the
destination tile.  Outer `none` is a non-returning execution (out-of-range
indexing panic or unbounded recursion); `some none` is a failed move;
`some (some v)` is a successful move producing `v`. -/
def move_bunny_solve (board : Board) : Nat → List Bunny → Nat → Move →
    Option (Option (List Bunny))
  | 0, _, _, _ => none
  | fuel + 1, bunnies, bunny_index, m =>
    match bunnies[bunny_index]? with
    | none => none
    | some bunny =>
      let dest := dest_of bunny m
      match tile_at board dest with
      | none => none
      | some .tree => some none
      | some .grass | some .bed =>
        match position dest bunnies with
        | none => some (some (bunnies.set bunny_index dest))
        | some bunny_in_the_way_index =>
          if PUSH_MULTIPLE = false ∧ bunny_index ≠ PLAYER_INDEX then
            some none
          else
            match move_bunny_solve board fuel bunnies bunny_in_the_way_index m with
            | none => none
            | some none => some none
            | some (some new_bunnies) =>
              some (some (new_bunnies.set bunny_index dest))

/-- `fn check_win_solve(&self, bunnies: &[Bunny]) -> bool`: non-mutating win
check; `none` models the `expect` panic on an empty vector. -/
def check_win_solve (beds : List Bunny) (bunnies : List Bunny) : Option Bool :=
  if 1 ≤ bunnies.length then
    some ((bunnies.drop 1).all (fun pos => beds.contains pos))
  else none

/-- The `Key::Char('z')` branch of `main`: pop the most recent history entry,
if any, and restore its bunny vector and move counter. -/
def undo (s : State) : State :=
  match s.history.getLast? with
  | none => s
  | some last_state =>
    { s with
      bunnies := last_state.bunnies,
      move_no := last_state.move_no,
      history := s.history.dropLast }

/-- The `Key::Char('r')` branch of `main`: push the current bunny vector and
move counter onto history, then restore the starting bunny vector and zero
the move counter. -/
def reset (s : State) : State :=
  { s with
    history := s.history ++ [⟨s.move_no, s.bunnies⟩],
    bunnies := s.bunny_starts,
    move_no := 0 }

/-- The mutating key commands of `main`'s control loop that act on the
current puzzle state: the four arrow keys, `r` (reset) and `z` (undo). -/
inductive Cmd
  | arrow (m : Move)
  | reset_key
  | undo_key

/-- One pass of `main`'s control loop for a mutating key: perform the
command's mutation, then `display`, which recomputes the win flag via
`check_win`. -/
def key_step (fuel : Nat) (s : State) (c : Cmd) : Option State :=
  let s1 : Option State :=
    match c with
    | .arrow m => (move_bunny fuel s PLAYER_INDEX m).map (fun r => r.2)
    | .reset_key => some (reset s)
    | .undo_key => some (undo s)
  match s1 with
  | none => none
  | some t => check_win t

/-- First-match lookup in an association list, modelling `HashMap<usize, usize>`
indexing (`parents.get`, `depths[&k]`).  Insertion prepends, and every key is
inserted at most once, so first match is the map's value. -/
def lookup_nat : List (Nat × Nat) → Nat → Option Nat
  | [], _ => none
  | p :: ps, k => if p.1 = k then some p.2 else lookup_nat ps k

/-- `visited.contains_key(&key)` for the `HashMap<Vec<Bunny>, usize>` modelled
as an association list. -/
def visited_contains : List (List Bunny × Nat) → List Bunny → Bool
  | [], _ => false
  | p :: ps, key => if p.1 = key then true else visited_contains ps key

/-- The solver's working data: the arena of discovered bunny vectors, the
dedup map, the FIFO frontier of arena indices, the parent and depth maps, and
the iteration counter. -/
structure BfsState where
  states : List (List Bunny)
  visited : List (List Bunny × Nat)
  queue : List Nat
  parents : List (Nat × Nat)
  depths : List (Nat × Nat)
  iters : Nat

deriving instance DecidableEq, Repr for BfsState

/-- One direction of the solver's expansion loop: attempt a pure player move
from the dequeued vector; on success, insert the candidate into the arena,
dedup map, frontier, parent map and depth map unless already discovered.
`none` propagates a panic of `move_bunny_solve`. -/
def expand_dir (board : Board) (fuel_move : Nat) (new_state : List Bunny)
    (new_index : Nat) (parent_depth : Nat) (m : Move) (b : BfsState) :
    Option BfsState :=
  match move_bunny_solve board fuel_move new_state PLAYER_INDEX m with
  | none => none
  | some none => some b
  | some (some candidate_state) =>
    if visited_contains b.visited candidate_state then some b
    else
      some { b with
        states := b.states ++ [candidate_state],
        visited := (candidate_state, b.states.length) :: b.visited,
        queue := b.queue ++ [b.states.length],
        parents := (b.states.length, new_index) :: b.parents,
        depths := (b.states.length, parent_depth + 1) :: b.depths }

/-- The solver's `while let Some(new_index) = queue.pop_front()` loop.
Returns the winning arena index (if a dequeued vector won) together with the
final working data.  `none` is a non-returning execution (a panic inside the
loop, or fuel exhaustion). -/
def solve_loop (board : Board) (beds : List Bunny)
    (max_moves max_iters fuel_move : Nat) :
    Nat → BfsState → Option (Option Nat × BfsState)
  | 0, _ => none
  | fuel + 1, b =>
    match b.queue with
    | [] => some (none, b)
    | new_index :: rest =>
      let b1 : BfsState := { b with queue := rest, iters := b.iters + 1 }
      match b1.states[new_index]? with
      | none => none
      | some new_state =>
        match check_win_solve beds new_state with
        | none => none
        | some true => some (some new_index, b1)
        | some false =>
          if b1.iters = max_iters then some (none, b1)
          else
            match lookup_nat b1.depths new_index with
            | none => none
            | some d =>
              if d = max_moves then
                solve_loop board beds max_moves max_iters fuel_move fuel b1
              else
                match (((expand_dir board fuel_move new_state new_index d .up b1).bind
                    (expand_dir board fuel_move new_state new_index d .down)).bind
                    (expand_dir board fuel_move new_state new_index d .left)).bind
                    (expand_dir board fuel_move new_state new_index d .right) with
                | none => none
                | some b2 =>
                  solve_loop board beds max_moves max_iters fuel_move fuel b2

/-- The solver's path reconstruction: starting from the winning index, follow
the parent map to the root, collecting arena entries.  Parent indices strictly
decrease, so fuel `states.length + 1` never runs out on states the loop
produces. -/
def reconstruct_path (states : List (List Bunny)) (parents : List (Nat × Nat)) :
    Nat → Nat → List (List Bunny) → Option (List (List Bunny))
  | 0, _, _ => none
  | fuel + 1, winning_index, path =>
    match lookup_nat parents winning_index with
    | none => some path
    | some path_index =>
      match states[path_index]? with
      | none => none
      | some path_elt =>
        reconstruct_path states parents fuel path_index (path ++ [path_elt])

/-- `fn solve(state, max_moves, max_iters) -> Option<(Vec<Vec<Bunny>>, SolveStats)>`:
breadth-first search over bunny vectors reachable by player moves.  Outer
`none` is a non-returning execution; `some none` is the source's `None`
("no solution"); `some (some (path, stats))` is a found solution. -/
def solve (state : State) (max_moves max_iters fuel_loop fuel_move : Nat) :
    Option (Option (List (List Bunny) × SolveStats)) :=
  let b0 : BfsState :=
    { states := [state.bunnies], visited := [(state.bunnies, 0)], queue := [0],
      parents := [], depths := [(0, 1)], iters := 0 }
  match solve_loop state.board state.beds max_moves max_iters fuel_move fuel_loop b0 with
  | none => none
  | some (none, _) => some none
  | some (some winning_index, b) =>
    match b.states[winning_index]? with
    | none => none
    | some winning_state =>
      match reconstruct_path b.states b.parents (b.states.length + 1)
          winning_index [winning_state] with
      | none => none
      | some path =>
        some (some (path.reverse, { iters := b.iters, queue_len := b.queue.length }))

/-- Accumulator of `from_file`'s tile scan: the last player position seen
(initially `(0, 0)`), the sleepy positions in scan order, and the bed
positions. -/
structure LoadAcc where
  player : Bunny
  bunnies : List Bunny
  beds : List Bunny

deriving instance DecidableEq, Repr for LoadAcc

/-- One character of `from_file`'s scan at position `pos`: produce the tile
and update the accumulator; `none` is the "unknown character" load error. -/
def scan_tile (pos : Bunny) (c : Char) (acc : LoadAcc) : Option (Tile × LoadAcc) :=
  if c = '#' ∨ c = 'T' then some (.tree, acc)
  else if c = ' ' then some (.grass, acc)
  else if c = '@' ∨ c = 'b' then some (.grass, { acc with player := pos })
  else if c = '$' ∨ c = 's' then
    some (.grass, { acc with bunnies := acc.bunnies ++ [pos] })
  else if c = '.' ∨ c = '_' then
    some (.bed, { acc with beds := acc.beds ++ [pos] })
  else if c = '+' ∨ c = 'p' then
    some (.bed, { acc with beds := acc.beds ++ [pos], player := pos })
  else if c = '*' ∨ c = 'z' then
    some (.bed, { acc with beds := acc.beds ++ [pos], bunnies := acc.bunnies ++ [pos] })
  else none

/-- Scan one row of the level text, columns `j, j+1, ...` of row `i`. -/
def scan_row (i : Nat) : Nat → List Char → LoadAcc → Option (List Tile × LoadAcc)
  | _, [], acc => some ([], acc)
  | j, c :: cs, acc =>
    match scan_tile (i, j) c acc with
    | none => none
    | some (t, acc1) =>
      match scan_row i (j + 1) cs acc1 with
      | none => none
      | some (row, acc2) => some (t :: row, acc2)

/-- Scan the rows of the level text, top to bottom, starting at row `i`. -/
def scan_rows : Nat → List (List Char) → LoadAcc → Option (Board × LoadAcc)
  | _, [], acc => some ([], acc)
  | i, r :: rs, acc =>
    match scan_row i 0 r acc with
    | none => none
    | some (row, acc1) =>
      match scan_rows (i + 1) rs acc1 with
      | none => none
      | some (rows, acc2) => some (row :: rows, acc2)

/-- `row.resize(n_columns, b' ')`: truncate or right-pad with spaces to the
requested width. -/
def resize_row (row : List Char) (n_columns : Nat) : List Char :=
  row.take n_columns ++ List.replicate (n_columns - row.length) ' '

/-- `board_raw.iter().map(|l| l.len()).max()`: `none` on an empty iterator. -/
def list_max? : List Nat → Option Nat
  | [] => none
  | n :: ns =>
    match list_max? ns with
    | none => some n
    | some m => some (Nat.max n m)

/-- `fn from_file`, from the point where the level text has been read into
lines of characters: normalize row widths, scan tiles and entity positions,
append the player position after the sleepies, reverse the whole vector, and
build the starting `State`.  `none` is a load error. -/
def from_file (lines : List (List Char)) (level_no : Nat) : Option State :=
  match list_max? (lines.map (fun l => l.length)) with
  | none => none
  | some n_columns =>
    match scan_rows 0 (lines.map (fun row => resize_row row n_columns))
        { player := (0, 0), bunnies := [], beds := [] } with
    | none => none
    | some (board, acc) =>
      let bunnies := (acc.bunnies ++ [acc.player]).reverse
      some { board := board, bunnies := bunnies, bunny_starts := bunnies,
             beds := acc.beds, level_no := level_no, move_no := 0,
             history := [], won := false }

/-! ### Basic lemmas about the move engine -/

/-- `position` finds an index bound and the element at it. -/
theorem position_eq_some {dest : Bunny} {l : List Bunny} {k : Nat}
    (h : position dest l = some k) : k < l.length ∧ l[k]? = some dest := by
  induction l generalizing k with
  | nil => simp [position] at h
  | cons b bs ih =>
    rw [position] at h
    by_cases hb : b = dest
    · simp [hb] at h
      subst h
      simp [hb]
    · simp [hb] at h
      obtain ⟨j, hj, hk⟩ := h
      obtain ⟨h1, h2⟩ := ih hj
      subst hk
      refine ⟨?_, ?_⟩
      · simp only [List.length_cons]
        omega
      · rw [List.getElem?_cons_succ]
        exact h2

/-- If `position` finds nothing, no element is `dest`. -/
theorem position_eq_none {dest : Bunny} {l : List Bunny}
    (h : position dest l = none) : ∀ j : Nat, l[j]? ≠ some dest := by
  induction l with
  | nil => intro j; simp
  | cons b bs ih =>
    rw [position] at h
    by_cases hb : b = dest
    · simp [hb] at h
    · simp [hb] at h
      intro j
      cases j with
      | zero => simpa using hb
      | succ j =>
        rw [List.getElem?_cons_succ]
        exact ih h j

/-- `position` returns the first match: a `some k` result means `l[k] = dest`
and no earlier index holds `dest`. -/
theorem position_first {dest : Bunny} {l : List Bunny} {k : Nat}
    (h : position dest l = some k) : ∀ j, j < k → l[j]? ≠ some dest := by
  induction l generalizing k with
  | nil => simp [position] at h
  | cons b bs ih =>
    rw [position] at h
    by_cases hb : b = dest
    · simp [hb] at h
      subst h
      intro j hj
      omega
    · simp [hb] at h
      obtain ⟨j0, hj0, hk⟩ := h
      subst hk
      intro j hj
      cases j with
      | zero => simpa using hb
      | succ j =>
        rw [List.getElem?_cons_succ]
        exact ih hj0 j (by omega)

/-- Claim C2's core: a `false` return of `move_bunny` leaves the state
unchanged, at every recursion depth. -/
theorem move_bunny_fail_eq :
    ∀ (fuel : Nat) (s : State) (i : Nat) (m : Move) (s' : State),
      move_bunny fuel s i m = some (false, s') → s' = s := by
  intro fuel
  induction fuel with
  | zero => intro s i m s' h; simp [move_bunny] at h
  | succ n ih =>
    intro s i m s' h
    simp only [move_bunny] at h
    split at h
    · simp at h
    · split at h
      · simp only [Option.some.injEq, Prod.mk.injEq] at h
        exact h.2.symm
      · simp only [Option.some.injEq, Prod.mk.injEq] at h
        exact h.2.symm
      · split at h
        · simp at h
        · split at h
          · simp only [Option.some.injEq, Prod.mk.injEq] at h
            exact h.2.symm
          · split at h
            · simp at h
            · rename_i s1 heq
              simp only [Option.some.injEq, Prod.mk.injEq] at h
              exact h.2 ▸ ih s _ m s1 heq
            · simp at h
      · split at h
        · simp at h
        · split at h
          · simp only [Option.some.injEq, Prod.mk.injEq] at h
            exact h.2.symm
          · split at h
            · simp at h
            · rename_i s1 heq
              simp only [Option.some.injEq, Prod.mk.injEq] at h
              exact h.2 ▸ ih s _ m s1 heq
            · simp at h

/-- If the head of the vector sits at `dest`, `position` returns index 0. -/
theorem position_zero {dest : Bunny} {l : List Bunny}
    (h : l[0]? = some dest) : position dest l = some 0 := by
  cases l with
  | nil => simp at h
  | cons b bs =>
    simp at h
    simp [position, h]

/-- A degenerate self-push (the destination saturates back onto the player's
own cell) never returns `true`: the source recurses forever there. -/
theorem move_bunny_self_not_true :
    ∀ (fuel : Nat) (s : State) (m : Move) (b : Bunny) (s' : State),
      s.bunnies[0]? = some b → dest_of b m = b →
      move_bunny fuel s PLAYER_INDEX m ≠ some (true, s') := by
  intro fuel
  induction fuel with
  | zero => intro s m b s' _ _ h; simp [move_bunny] at h
  | succ n ih =>
    intro s m b s' hb hdest h
    simp only [move_bunny, PLAYER_INDEX] at h
    rw [hb] at h
    simp only at h
    rw [hdest] at h
    split at h
    · simp at h
    · simp at h
    · rw [position_zero hb] at h
      simp only at h
      split at h
      · simp at h
      · split at h
        · simp at h
        · simp at h
        · rename_i s1 heq
          simp only [Option.some.injEq, Prod.mk.injEq] at h
          exact ih s m b s1 hb hdest (by simpa [PLAYER_INDEX] using heq)
    · rw [position_zero hb] at h
      simp only at h
      split at h
      · simp at h
      · split at h
        · simp at h
        · simp at h
        · rename_i s1 heq
          simp only [Option.some.injEq, Prod.mk.injEq] at h
          exact ih s m b s1 hb hdest (by simpa [PLAYER_INDEX] using heq)

/-- Characterization of a successful non-player move: with the Skinner
pushing policy (`PUSH_MULTIPLE = false`) a non-player bunny can only step
onto an empty grass or bed cell, and the only mutation is its own slot. -/
theorem move_bunny_nonplayer_true :
    ∀ (fuel : Nat) (s : State) (i : Nat) (m : Move) (s' : State), i ≠ PLAYER_INDEX →
      move_bunny fuel s i m = some (true, s') →
      ∃ b, s.bunnies[i]? = some b ∧
        (tile_at s.board (dest_of b m) = some Tile.grass ∨
          tile_at s.board (dest_of b m) = some Tile.bed) ∧
        position (dest_of b m) s.bunnies = none ∧
        s' = { s with bunnies := s.bunnies.set i (dest_of b m) } := by
  intro fuel s i m s' hi h
  match fuel with
  | 0 => simp [move_bunny] at h
  | n + 1 =>
    simp only [move_bunny] at h
    split at h
    · simp at h
    · rename_i bunny hb
      refine ⟨bunny, hb, ?_⟩
      split at h
      · simp at h
      · simp at h
      · rename_i htile
        refine ⟨Or.inl htile, ?_⟩
        split at h
        · rename_i hpos
          simp only [Option.some.injEq, Prod.mk.injEq] at h
          refine ⟨hpos, ?_⟩
          rw [← h.2]
          simp [commit_move, hi]
        · rename_i hpos
          rw [if_pos ⟨rfl, hi⟩] at h
          simp at h
      · rename_i htile
        refine ⟨Or.inr htile, ?_⟩
        split at h
        · rename_i hpos
          simp only [Option.some.injEq, Prod.mk.injEq] at h
          refine ⟨hpos, ?_⟩
          rw [← h.2]
          simp [commit_move, hi]
        · rename_i hpos
          rw [if_pos ⟨rfl, hi⟩] at h
          simp at h

/-- Characterization of a successful player move: the destination differs
from the player's own cell, exactly one pre-move snapshot is pushed, the
move counter increments once, and either the destination was unoccupied (only
slot 0 changes) or the first occupant of the destination (never slot 0) was
itself pushed one further cell onto an unoccupied grass or bed cell. -/
theorem move_bunny_player_true
    (fuel : Nat) (s : State) (m : Move) (s' : State)
    (h : move_bunny fuel s PLAYER_INDEX m = some (true, s')) :
    ∃ b, s.bunnies[0]? = some b ∧ dest_of b m ≠ b ∧
      s'.move_no = s.move_no + 1 ∧
      s'.history = s.history ++ [⟨s.move_no, s.bunnies⟩] ∧
      s'.board = s.board ∧ s'.beds = s.beds ∧
      s'.bunny_starts = s.bunny_starts ∧ s'.won = s.won ∧
      ((position (dest_of b m) s.bunnies = none ∧
          s'.bunnies = s.bunnies.set 0 (dest_of b m)) ∨
        (∃ k, position (dest_of b m) s.bunnies = some k ∧ k ≠ 0 ∧
          s.bunnies[k]? = some (dest_of b m) ∧
          dest_of (dest_of b m) m ≠ dest_of b m ∧
          position (dest_of (dest_of b m) m) s.bunnies = none ∧
          s'.bunnies =
            (s.bunnies.set k (dest_of (dest_of b m) m)).set 0 (dest_of b m))) := by
  match fuel with
  | 0 => simp [move_bunny] at h
  | n + 1 =>
    have h0 := h
    rw [move_bunny] at h
    have hpolicy : (PUSH_MULTIPLE = false ∧ PLAYER_INDEX ≠ PLAYER_INDEX) = False := by
      simp
    simp only [hpolicy, if_false] at h
    split at h
    · simp at h
    · rename_i bunny hb
      have hb0 : s.bunnies[0]? = some bunny := hb
      refine ⟨bunny, hb0, ?_⟩
      have hne : dest_of bunny m ≠ bunny := by
        intro hd
        exact move_bunny_self_not_true (n + 1) s m bunny s' hb0 hd h0
      refine ⟨hne, ?_⟩
      split at h
      · simp at h
      · simp at h
      all_goals {
        split at h
        · -- destination unoccupied: direct commit
          rename_i hpos
          simp only [Option.some.injEq, Prod.mk.injEq] at h
          rw [← h.2]
          simp only [commit_move, if_pos rfl]
          exact ⟨rfl, rfl, rfl, rfl, rfl, rfl, Or.inl ⟨hpos, rfl⟩⟩
        · -- destination occupied: recursive push
          rename_i k hpos
          split at h
          · simp at h
          · simp at h
          · rename_i s1 heq
            simp only [Option.some.injEq, Prod.mk.injEq] at h
            have hk0 : k ≠ 0 := by
              intro hk
              subst hk
              obtain ⟨_, hk2⟩ := position_eq_some hpos
              rw [hb0] at hk2
              exact hne (by simpa using hk2.symm)
            obtain ⟨bk, hbk, htile2, hpos2, hs1⟩ :=
              move_bunny_nonplayer_true n s k m s1
                (by simpa [PLAYER_INDEX] using hk0) heq
            have hbk' : bk = dest_of bunny m := by
              obtain ⟨_, hk2⟩ := position_eq_some hpos
              rw [hbk] at hk2
              simpa using hk2
            subst hbk'
            have hne2 : dest_of (dest_of bunny m) m ≠ dest_of bunny m := by
              intro hd
              have hcontra := position_eq_none hpos2 k
              rw [hbk, hd] at hcontra
              exact hcontra rfl
            rw [← h.2]
            subst hs1
            simp only [commit_move, if_pos rfl]
            exact ⟨rfl, rfl, rfl, rfl, rfl, rfl,
              Or.inr ⟨k, hpos, hk0, hbk, hne2, hpos2, rfl⟩⟩
      }

/-- `b` lies exactly one cell from `a` in direction `m` (no saturation). -/
def one_cell (a b : Bunny) (m : Move) : Prop :=
  match m with
  | .up => a.1 = b.1 + 1 ∧ a.2 = b.2
  | .down => b.1 = a.1 + 1 ∧ b.2 = a.2
  | .left => a.2 = b.2 + 1 ∧ a.1 = b.1
  | .right => b.2 = a.2 + 1 ∧ b.1 = a.1

/-- When the destination differs from the source, it is exactly one cell away
in the direction moved. -/
theorem one_cell_dest (a : Bunny) (m : Move) (h : dest_of a m ≠ a) :
    one_cell a (dest_of a m) m := by
  cases m <;> simp [dest_of, one_cell, Prod.ext_iff] at h ⊢ <;> omega

/-- A shared small level for witnesses: a walled 3×5 corridor with the player
at (1,1), a sleepy at (1,2) and a bed at (1,3). -/
def corridor_state : State :=
  { board := [[.tree, .tree, .tree, .tree, .tree],
              [.tree, .grass, .grass, .bed, .tree],
              [.tree, .tree, .tree, .tree, .tree]],
    bunny_starts := [(1, 1), (1, 2)], beds := [(1, 3)],
    bunnies := [(1, 1), (1, 2)], level_no := 1, move_no := 0,
    history := [], won := false }

/-- The state after pushing right once from `corridor_state`. -/
def corridor_after : State :=
  { corridor_state with
    bunnies := [(1, 2), (1, 3)], move_no := 1,
    history := [⟨0, [(1, 1), (1, 2)]⟩] }

/-! ### Claim C1 -/

/-- Claim C1, as stated, is false: with two entities on the same cell (the
spec's data model assumes no position uniqueness), a successful player move
advances only the *first* occupant of the destination cell; another entity
occupying that same destination cell stays put.  Here bunnies 1 and 2 both
sit on (1,2), the player's destination; the move succeeds but bunny 2 does
not advance to (1,3). -/
theorem claim1_counterexample :
    (move_bunny 5
        { board := [[.tree, .tree, .tree, .tree, .tree],
                    [.tree, .grass, .grass, .grass, .tree],
                    [.tree, .tree, .tree, .tree, .tree]],
          bunny_starts := [(1, 1), (1, 2), (1, 2)], beds := [],
          bunnies := [(1, 1), (1, 2), (1, 2)], level_no := 1, move_no := 0,
          history := [], won := false }
        PLAYER_INDEX Move.right).map (fun r => (r.1, r.2.bunnies))
      = some (true, [(1, 2), (1, 3), (1, 2)]) ∧
    ([(1, 1), (1, 2), (1, 2)] : List Bunny)[2]? = some (dest_of (1, 1) Move.right) ∧
    ¬ ([(1, 2), (1, 3), (1, 2)] : List Bunny)[2]? = some (dest_of (1, 2) Move.right) := by
  refine ⟨by decide, by decide, by decide⟩

/-- Claim C1 (amended: the entity positions must be pairwise distinct, as
they are in every loaded level and along every play from one): if the
player's `move_bunny` succeeds, the player advances exactly one cell in the
direction moved, every entity occupying the player's destination advances
exactly one cell likewise, every other entity is unchanged, exactly one
history snapshot holding the pre-move entity vector and pre-move move
counter is pushed, and the move counter increases by exactly one. -/
theorem claim1_push_chain_atomic
    (fuel : Nat) (s : State) (m : Move) (s' : State)
    (hnd : s.bunnies.Nodup)
    (h : move_bunny fuel s PLAYER_INDEX m = some (true, s')) :
    ∃ b, s.bunnies[0]? = some b ∧
      s'.bunnies[0]? = some (dest_of b m) ∧ one_cell b (dest_of b m) m ∧
      (∀ j : Nat, 1 ≤ j → ∀ p : Bunny, s.bunnies[j]? = some p →
        (p = dest_of b m →
          s'.bunnies[j]? = some (dest_of p m) ∧ one_cell p (dest_of p m) m) ∧
        (p ≠ dest_of b m → s'.bunnies[j]? = some p)) ∧
      s'.history = s.history ++ [⟨s.move_no, s.bunnies⟩] ∧
      s'.move_no = s.move_no + 1 := by
  obtain ⟨b, hb, hne, hmv, hhist, _, _, _, _, hcase⟩ :=
    move_bunny_player_true fuel s m s' h
  have hlen : 0 < s.bunnies.length := by
    by_contra hl
    rw [List.getElem?_eq_none (by omega)] at hb
    simp at hb
  refine ⟨b, hb, ?_, ?_, ?_, hhist, hmv⟩
  · rcases hcase with ⟨_, hbun⟩ | ⟨k, _, _, _, _, _, hbun⟩ <;> rw [hbun] <;>
      simp [List.getElem?_set, hlen]
  · exact one_cell_dest b m hne
  · intro j hj p hp
    rcases hcase with ⟨hpos, hbun⟩ | ⟨k, hpos, hk0, hbk, hne2, hpos2, hbun⟩
    · refine ⟨fun hpd => absurd hp ?_, fun _ => ?_⟩
      · rw [hpd]; exact position_eq_none hpos j
      · rw [hbun, List.getElem?_set_ne (by omega)]
        exact hp
    · refine ⟨fun hpd => ?_, fun hpd => ?_⟩
      · subst hpd
        have hjk : j = k := by
          have hjlt : j < s.bunnies.length := by
            by_contra hl
            rw [List.getElem?_eq_none (by omega)] at hp
            simp at hp
          exact List.getElem?_inj hjlt hnd (hp.trans hbk.symm)
        subst hjk
        constructor
        · rw [hbun, List.getElem?_set_ne (by omega), List.getElem?_set_self]
          have hklt : j < s.bunnies.length := by
            by_contra hl
            rw [List.getElem?_eq_none (by omega)] at hp
            simp at hp
          simp [hklt]
        · exact one_cell_dest _ m hne2
      · have hjk : j ≠ k := by
          intro hjk
          subst hjk
          rw [hp] at hbk
          exact hpd (by simpa using hbk)
        rw [hbun, List.getElem?_set_ne (by omega), List.getElem?_set_ne (by omega)]
        exact hp

/-- Witness for C1's amended theorem at the corridor level: pushing right
succeeds and the characterization holds. -/
theorem claim1_witness :
    ∃ b, corridor_state.bunnies[0]? = some b ∧
      corridor_after.bunnies[0]? = some (dest_of b Move.right) ∧
      one_cell b (dest_of b Move.right) Move.right ∧
      (∀ j : Nat, 1 ≤ j → ∀ p : Bunny, corridor_state.bunnies[j]? = some p →
        (p = dest_of b Move.right →
          corridor_after.bunnies[j]? = some (dest_of p Move.right) ∧
            one_cell p (dest_of p Move.right) Move.right) ∧
        (p ≠ dest_of b Move.right → corridor_after.bunnies[j]? = some p)) ∧
      corridor_after.history =
        corridor_state.history ++ [⟨corridor_state.move_no, corridor_state.bunnies⟩] ∧
      corridor_after.move_no = corridor_state.move_no + 1 :=
  claim1_push_chain_atomic 5 corridor_state Move.right corridor_after
    (by decide) (by decide)

/-! ### Claim C2 -/

/-- Claim C2: whenever `move_bunny` returns `false` — for any state, any
entity index and any direction, hence at every recursion depth of a push
chain — the entity vector, the move counter and the undo history are
unchanged. -/
theorem claim2_fail_non_mutation
    (fuel : Nat) (s : State) (i : Nat) (m : Move) (s' : State)
    (h : move_bunny fuel s i m = some (false, s')) :
    s'.bunnies = s.bunnies ∧ s'.move_no = s.move_no ∧ s'.history = s.history := by
  rw [move_bunny_fail_eq fuel s i m s' h]
  exact ⟨rfl, rfl, rfl⟩

/-- Witness for C2: moving up from the corridor start is blocked by a tree
and mutates nothing. -/
theorem claim2_witness :
    corridor_state.bunnies = corridor_state.bunnies ∧
      corridor_state.move_no = corridor_state.move_no ∧
      corridor_state.history = corridor_state.history :=
  claim2_fail_non_mutation 5 corridor_state 0 Move.up corridor_state (by decide)

/-! ### Claim C7 -/

/-- Claim C7: undoing immediately after a committed player move restores the
pre-move entity vector and move counter exactly; `undo` pops at most one
history entry per request; `undo` is a no-op on an empty history. -/
theorem claim7_undo_inverse (s : State) :
    (∀ (fuel : Nat) (m : Move) (s' : State),
        move_bunny fuel s PLAYER_INDEX m = some (true, s') →
        (undo s').bunnies = s.bunnies ∧ (undo s').move_no = s.move_no) ∧
    (s.history = [] → undo s = s) ∧
    s.history.length ≤ (undo s).history.length + 1 := by
  refine ⟨?_, ?_, ?_⟩
  · intro fuel m s' h
    obtain ⟨b, _, _, _, hhist, _⟩ := move_bunny_player_true fuel s m s' h
    rw [undo, hhist, List.getLast?_concat]
    exact ⟨rfl, rfl⟩
  · intro h
    rw [undo, h]
    rfl
  · rw [undo]
    split
    · omega
    · simp only [List.length_dropLast]
      omega

/-- Witness for C7 at the corridor level. -/
theorem claim7_witness :
    (undo corridor_after).bunnies = corridor_state.bunnies ∧
      (undo corridor_after).move_no = corridor_state.move_no :=
  (claim7_undo_inverse corridor_state).1 5 Move.right corridor_after (by decide)

/-! ### Claim C6 -/

/-- A normal return of `check_win` sets the win flag to the win predicate on
the (unchanged) current bunny vector and bed set. -/
theorem check_win_spec (t s' : State) (h : check_win t = some s') :
    s'.won = true ↔ ∀ p ∈ s'.bunnies.drop 1, p ∈ s'.beds := by
  rw [check_win] at h
  split at h
  · simp only [Option.some.injEq] at h
    subst h
    simp [List.all_eq_true]
  · simp at h

/-- Claim C6: after any mutating key command of the control loop (an arrow
move, committed or not, an undo, or a reset), the win flag of the resulting
state equals the predicate "every entity in slots 1.. lies in the bed set"
evaluated on the resulting entity vector — never a stale value. -/
theorem claim6_win_flag_fresh (fuel : Nat) (s : State) (c : Cmd) (s' : State)
    (h : key_step fuel s c = some s') :
    s'.won = true ↔ ∀ p ∈ s'.bunnies.drop 1, p ∈ s'.beds := by
  rw [key_step.eq_def] at h
  cases c with
  | arrow m =>
    dsimp only at h
    cases hmb : move_bunny fuel s PLAYER_INDEX m with
    | none => rw [hmb] at h; simp at h
    | some r =>
      rw [hmb] at h
      exact check_win_spec r.2 s' (by simpa using h)
  | reset_key =>
    dsimp only at h
    exact check_win_spec (reset s) s' h
  | undo_key =>
    dsimp only at h
    exact check_win_spec (undo s) s' h

/-- Witness for C6: pushing right in the corridor puts the sleepy in bed and
the recomputed flag agrees with the predicate. -/
theorem claim6_witness :
    ({ corridor_after with won := true } : State).won = true ↔
      ∀ p ∈ ({ corridor_after with won := true } : State).bunnies.drop 1,
        p ∈ ({ corridor_after with won := true } : State).beds :=
  claim6_win_flag_fresh 5 corridor_state (Cmd.arrow Move.right)
    { corridor_after with won := true } (by decide)

/-! ### Claim C9 -/

/-- Entities strictly inside the border have destinations inside the grid
(and distinct from their source: no index saturation). -/
theorem dest_of_inside (p : Bunny) (m : Move) (nr nc : Nat)
    (hp : 1 ≤ p.1 ∧ p.1 + 1 < nr ∧ 1 ≤ p.2 ∧ p.2 + 1 < nc) :
    (dest_of p m).1 < nr ∧ (dest_of p m).2 < nc ∧ dest_of p m ≠ p := by
  obtain ⟨h1, h2, h3, h4⟩ := hp
  cases m <;> simp [dest_of, Prod.ext_iff] <;> omega

/-- On a rectangular board, lookups inside the bounds are total. -/
theorem tile_at_total (board : Board) (n_cols : Nat)
    (hrect : ∀ row ∈ board, row.length = n_cols)
    (p : Bunny) (h1 : p.1 < board.length) (h2 : p.2 < n_cols) :
    ∃ t, tile_at board p = some t := by
  rcases hrow : board[p.1]? with _ | row
  · rw [List.getElem?_eq_none_iff] at hrow
    omega
  · have hmem : row ∈ board := List.getElem?_mem hrow
    have hlen : row.length = n_cols := hrect row hmem
    rcases ht : row[p.2]? with _ | t
    · rw [List.getElem?_eq_none_iff] at ht
      omega
    · refine ⟨t, ?_⟩
      rw [tile_at, hrow]
      exact ht

/-- A non-player `move_bunny_solve` returns after one unfolding: under the
Skinner policy it never recurses. -/
theorem move_bunny_solve_nonplayer_total
    (board : Board) (n_cols : Nat) (bunnies : List Bunny)
    (hrect : ∀ row ∈ board, row.length = n_cols)
    (hin : ∀ p ∈ bunnies, 1 ≤ p.1 ∧ p.1 + 1 < board.length ∧ 1 ≤ p.2 ∧ p.2 + 1 < n_cols)
    (i : Nat) (hi : i < bunnies.length) (hip : i ≠ PLAYER_INDEX) (m : Move) (fuel : Nat) :
    ∃ r, move_bunny_solve board (fuel + 1) bunnies i m = some r := by
  have hmem : bunnies[i] ∈ bunnies := List.getElem_mem hi
  obtain ⟨hd1, hd2, _⟩ :=
    dest_of_inside bunnies[i] m board.length n_cols (hin _ hmem)
  obtain ⟨t, ht⟩ := tile_at_total board n_cols hrect (dest_of bunnies[i] m) hd1 hd2
  rw [move_bunny_solve]
  cases t with
  | tree =>
    refine ⟨none, ?_⟩
    simp only [List.getElem?_eq_getElem hi, ht]
  | grass =>
    rcases hpos : position (dest_of bunnies[i] m) bunnies with _ | k
    · refine ⟨some (bunnies.set i (dest_of bunnies[i] m)), ?_⟩
      simp only [List.getElem?_eq_getElem hi, ht, hpos]
    · refine ⟨none, ?_⟩
      simp only [List.getElem?_eq_getElem hi, ht, hpos]
      rw [if_pos ⟨rfl, hip⟩]
  | bed =>
    rcases hpos : position (dest_of bunnies[i] m) bunnies with _ | k
    · refine ⟨some (bunnies.set i (dest_of bunnies[i] m)), ?_⟩
      simp only [List.getElem?_eq_getElem hi, ht, hpos]
    · refine ⟨none, ?_⟩
      simp only [List.getElem?_eq_getElem hi, ht, hpos]
      rw [if_pos ⟨rfl, hip⟩]

/-- Claim C9: with the grid's border all walls and every entity strictly
inside it, `move_bunny_solve` — which skips bounds checks — never indexes
the board out of bounds for any in-range entity index and any direction:
every execution returns normally (fuel 2 covers the deepest push chain).
The wall-border hypothesis is the stated precondition; the proof in fact
only needs the entities to sit strictly inside a rectangular grid, which
that precondition provides. -/
theorem claim9_solver_move_safe
    (board : Board) (n_cols : Nat) (bunnies : List Bunny)
    (hrect : ∀ row ∈ board, row.length = n_cols)
    (hborder : ∀ i j : Nat, i < board.length → j < n_cols →
      (i = 0 ∨ i + 1 = board.length ∨ j = 0 ∨ j + 1 = n_cols) →
      tile_at board (i, j) = some Tile.tree)
    (hin : ∀ p ∈ bunnies, 1 ≤ p.1 ∧ p.1 + 1 < board.length ∧ 1 ≤ p.2 ∧ p.2 + 1 < n_cols)
    (i : Nat) (hi : i < bunnies.length) (m : Move) (fuel : Nat) (hf : 2 ≤ fuel) :
    ∃ r, move_bunny_solve board fuel bunnies i m = some r := by
  obtain ⟨f, rfl⟩ : ∃ f, fuel = f + 2 := ⟨fuel - 2, by omega⟩
  by_cases hip : i = PLAYER_INDEX
  · subst hip
    have hi0 : PLAYER_INDEX < bunnies.length := hi
    have hmem : bunnies[PLAYER_INDEX] ∈ bunnies := List.getElem_mem hi0
    obtain ⟨hd1, hd2, hdne⟩ :=
      dest_of_inside bunnies[PLAYER_INDEX] m board.length n_cols (hin _ hmem)
    obtain ⟨t, ht⟩ := tile_at_total board n_cols hrect _ hd1 hd2
    rw [show f + 2 = (f + 1) + 1 from rfl, move_bunny_solve]
    cases t with
    | tree =>
      refine ⟨none, ?_⟩
      simp only [List.getElem?_eq_getElem hi0, ht]
    | grass =>
      rcases hpos : position (dest_of bunnies[PLAYER_INDEX] m) bunnies with _ | k
      · refine ⟨some (bunnies.set PLAYER_INDEX (dest_of bunnies[PLAYER_INDEX] m)), ?_⟩
        simp only [List.getElem?_eq_getElem hi0, ht, hpos]
      · have hk : k < bunnies.length ∧ bunnies[k]? = some (dest_of bunnies[PLAYER_INDEX] m) :=
          position_eq_some hpos
        have hk0 : k ≠ PLAYER_INDEX := by
          intro hkp
          subst hkp
          rw [List.getElem?_eq_getElem hi0] at hk
          have heq : bunnies[PLAYER_INDEX] = dest_of bunnies[PLAYER_INDEX] m := by
            simpa using hk.2
          exact hdne heq.symm
        obtain ⟨r, hr⟩ :=
          move_bunny_solve_nonplayer_total board n_cols bunnies hrect hin k hk.1 hk0 m f
        rcases r with _ | nb
        · refine ⟨none, ?_⟩
          simp only [List.getElem?_eq_getElem hi0, ht, hpos]
          rw [if_neg (show ¬(PUSH_MULTIPLE = false ∧ PLAYER_INDEX ≠ PLAYER_INDEX) by simp)]
          simp only [hr]
        · refine ⟨some (nb.set PLAYER_INDEX (dest_of bunnies[PLAYER_INDEX] m)), ?_⟩
          simp only [List.getElem?_eq_getElem hi0, ht, hpos]
          rw [if_neg (show ¬(PUSH_MULTIPLE = false ∧ PLAYER_INDEX ≠ PLAYER_INDEX) by simp)]
          simp only [hr]
    | bed =>
      rcases hpos : position (dest_of bunnies[PLAYER_INDEX] m) bunnies with _ | k
      · refine ⟨some (bunnies.set PLAYER_INDEX (dest_of bunnies[PLAYER_INDEX] m)), ?_⟩
        simp only [List.getElem?_eq_getElem hi0, ht, hpos]
      · have hk : k < bunnies.length ∧ bunnies[k]? = some (dest_of bunnies[PLAYER_INDEX] m) :=
          position_eq_some hpos
        have hk0 : k ≠ PLAYER_INDEX := by
          intro hkp
          subst hkp
          rw [List.getElem?_eq_getElem hi0] at hk
          have heq : bunnies[PLAYER_INDEX] = dest_of bunnies[PLAYER_INDEX] m := by
            simpa using hk.2
          exact hdne heq.symm
        obtain ⟨r, hr⟩ :=
          move_bunny_solve_nonplayer_total board n_cols bunnies hrect hin k hk.1 hk0 m f
        rcases r with _ | nb
        · refine ⟨none, ?_⟩
          simp only [List.getElem?_eq_getElem hi0, ht, hpos]
          rw [if_neg (show ¬(PUSH_MULTIPLE = false ∧ PLAYER_INDEX ≠ PLAYER_INDEX) by simp)]
          simp only [hr]
        · refine ⟨some (nb.set PLAYER_INDEX (dest_of bunnies[PLAYER_INDEX] m)), ?_⟩
          simp only [List.getElem?_eq_getElem hi0, ht, hpos]
          rw [if_neg (show ¬(PUSH_MULTIPLE = false ∧ PLAYER_INDEX ≠ PLAYER_INDEX) by simp)]
          simp only [hr]
  · obtain ⟨r, hr⟩ :=
      move_bunny_solve_nonplayer_total board n_cols bunnies hrect hin i hi hip m (f + 1)
    exact ⟨r, hr⟩

/-- Witness for C9 on the corridor level. -/
theorem claim9_witness :
    ∃ r, move_bunny_solve corridor_state.board 2 corridor_state.bunnies 0 Move.right
      = some r :=
  claim9_solver_move_safe corridor_state.board 5 corridor_state.bunnies
    (by decide)
    (by
      intro i j hi hj hedge
      have h3 : List.length corridor_state.board = 3 := rfl
      rw [h3] at hi hedge
      interval_cases i <;> interval_cases j <;> revert hedge <;> decide)
    (by decide) 0 (by decide) Move.right 2 (by omega)

/-! ### Claim C10 -/

/-- Claim C10: when the starting vector already wins, `solve` returns the
one-vector path `[start]` with stats `iters = 1, queue_len = 0`, for every
`max_moves` and `max_iters` — the win check on a dequeued vector runs before
the iteration-budget and depth checks. -/
theorem claim10_immediate_win (s : State) (mm mi fl fm : Nat)
    (hwin : check_win_solve s.beds s.bunnies = some true) :
    solve s mm mi (fl + 1) fm = some (some ([s.bunnies], ⟨1, 0⟩)) := by
  rw [solve, solve_loop]
  simp [hwin, reconstruct_path, lookup_nat]

/-- Witness for C10: a corridor whose sleepy starts in bed, with both
budgets zero. -/
theorem claim10_witness :
    solve { corridor_state with bunnies := [(1, 1), (1, 3)] } 0 0 1 0
      = some (some ([[(1, 1), (1, 3)]], ⟨1, 0⟩)) :=
  claim10_immediate_win { corridor_state with bunnies := [(1, 1), (1, 3)] } 0 0 0 0
    (by decide)

/-! ### Claim C5 -/

/-- Claim C5, as stated, is false: on budget or frontier exhaustion `solve`
returns the bare `None`, which carries no iteration or queue-length
counters; the `SolveStats` diagnostics accompany only successful results.
Here the single sleepy can never reach a bed (there is none), the frontier
exhausts after two iterations, and the result is `some none`. -/
theorem claim5_counterexample :
    solve
      { board := [[.tree, .tree, .tree, .tree, .tree],
                  [.tree, .grass, .grass, .grass, .tree],
                  [.tree, .tree, .tree, .tree, .tree]],
        bunny_starts := [(1, 1), (1, 3)], beds := [],
        bunnies := [(1, 1), (1, 3)], level_no := 1, move_no := 0,
        history := [], won := false } 5 10 20 5 = some none := by
  decide

/-- Claim C5 (amended): whenever the search loop terminates without reaching
a winning vector (iteration budget consumed or frontier exhausted), `solve`
returns the bare no-solution value `none`, with no diagnostic counters
attached; stats are produced only on the success path. -/
theorem claim5_no_solution_bare (s : State) (mm mi fl fm : Nat) (b' : BfsState)
    (h : solve_loop s.board s.beds mm mi fm fl
        { states := [s.bunnies], visited := [(s.bunnies, 0)], queue := [0],
          parents := [], depths := [(0, 1)], iters := 0 } = some (none, b')) :
    solve s mm mi fl fm = some none := by
  rw [solve]
  rw [h]

/-- Witness for C5's amended theorem: the stuck corridor exhausts its
frontier after two iterations. -/
theorem claim5_witness :
    solve
      { board := [[.tree, .tree, .tree, .tree, .tree],
                  [.tree, .grass, .grass, .grass, .tree],
                  [.tree, .tree, .tree, .tree, .tree]],
        bunny_starts := [(1, 1), (1, 3)], beds := [],
        bunnies := [(1, 1), (1, 3)], level_no := 1, move_no := 0,
        history := [], won := false } 5 10 6 5 = some none :=
  claim5_no_solution_bare _ 5 10 6 5
    { states := [[(1, 1), (1, 3)], [(1, 2), (1, 3)]],
      visited := [([(1, 2), (1, 3)], 1), ([(1, 1), (1, 3)], 0)],
      queue := [], parents := [(1, 0)], depths := [(1, 2), (0, 1)], iters := 2 }
    (by decide)

/-! ### Claim C8 -/

/-- The characters that place a sleepy (on grass or on a bed). -/
def sleepy_char (c : Char) : Bool := decide (c = '$' ∨ c = 's' ∨ c = '*' ∨ c = 'z')

/-- The characters that place the player (on grass or on a bed). -/
def player_char (c : Char) : Bool := decide (c = '@' ∨ c = 'b' ∨ c = '+' ∨ c = 'p')

/-- Positions within one row, left to right from column `j`, whose character
satisfies `select`. -/
def row_positions (select : Char → Bool) (i : Nat) : Nat → List Char → List Bunny
  | _, [] => []
  | j, c :: cs => (if select c then [(i, j)] else []) ++ row_positions select i (j + 1) cs

/-- Positions in row-major scan order from row `i` whose character satisfies
`select`. -/
def scan_positions_from (select : Char → Bool) : Nat → List (List Char) → List Bunny
  | _, [] => []
  | i, r :: rs => row_positions select i 0 r ++ scan_positions_from select (i + 1) rs

/-- Positions in row-major scan order whose character satisfies `select`. -/
def scan_positions (select : Char → Bool) (lines : List (List Char)) : List Bunny :=
  scan_positions_from select 0 lines

theorem getLastD_append {α : Type} (xs ys : List α) (d : α) :
    (xs ++ ys).getLastD d = ys.getLastD (xs.getLastD d) := by
  induction xs generalizing d with
  | nil => rfl
  | cons a xs ih =>
    rw [List.cons_append, List.getLastD_cons, List.getLastD_cons, ih]

/-- What one row's scan does to the accumulator: sleepy positions are
appended in left-to-right order, and the player field ends at the last
player character of the row (if any). -/
theorem scan_row_acc :
    ∀ (cs : List Char) (i j : Nat) (acc : LoadAcc) (row : List Tile) (acc' : LoadAcc),
      scan_row i j cs acc = some (row, acc') →
      acc'.bunnies = acc.bunnies ++ row_positions sleepy_char i j cs ∧
        acc'.player = (row_positions player_char i j cs).getLastD acc.player := by
  intro cs
  induction cs with
  | nil =>
    intro i j acc row acc' h
    rw [scan_row] at h
    simp only [Option.some.injEq, Prod.mk.injEq] at h
    rw [← h.2]
    simp [row_positions]
  | cons c cs ih =>
    intro i j acc row acc' h
    rw [scan_row] at h
    rcases hst : scan_tile (i, j) c acc with _ | ⟨t, acc1⟩
    · rw [hst] at h; simp at h
    · rw [hst] at h
      dsimp only at h
      rcases hsr : scan_row i (j + 1) cs acc1 with _ | ⟨row2, acc2⟩
      · rw [hsr] at h; simp at h
      · rw [hsr] at h
        simp only [Option.some.injEq, Prod.mk.injEq] at h
        obtain ⟨ih1, ih2⟩ := ih i (j + 1) acc1 row2 acc2 hsr
        rw [← h.2]
        rw [scan_tile] at hst
        split_ifs at hst with h1 h2 h3 h4 h5 h6 h7
        · obtain ⟨-, hacc⟩ : Tile.tree = t ∧ acc = acc1 := by simpa using hst
          subst hacc
          have hs : sleepy_char c = false := by rcases h1 with rfl | rfl <;> rfl
          have hp : player_char c = false := by rcases h1 with rfl | rfl <;> rfl
          have ih1' : acc2.bunnies = acc.bunnies ++ row_positions sleepy_char i (j + 1) cs :=
            ih1
          have ih2' : acc2.player =
              (row_positions player_char i (j + 1) cs).getLastD acc.player := ih2
          rw [row_positions, row_positions, hs, hp]
          constructor
          · rw [if_neg Bool.false_ne_true, List.nil_append]
            exact ih1'
          · rw [if_neg Bool.false_ne_true, List.nil_append]
            exact ih2'
        · obtain ⟨-, hacc⟩ : Tile.grass = t ∧ acc = acc1 := by simpa using hst
          subst hacc
          have hs : sleepy_char c = false := by rw [h2]; rfl
          have hp : player_char c = false := by rw [h2]; rfl
          have ih1' : acc2.bunnies = acc.bunnies ++ row_positions sleepy_char i (j + 1) cs :=
            ih1
          have ih2' : acc2.player =
              (row_positions player_char i (j + 1) cs).getLastD acc.player := ih2
          rw [row_positions, row_positions, hs, hp]
          constructor
          · rw [if_neg Bool.false_ne_true, List.nil_append]
            exact ih1'
          · rw [if_neg Bool.false_ne_true, List.nil_append]
            exact ih2'
        · obtain ⟨-, hacc⟩ :
              Tile.grass = t ∧ ({ acc with player := (i, j) } : LoadAcc) = acc1 := by
            simpa using hst
          subst hacc
          have hs : sleepy_char c = false := by rcases h3 with rfl | rfl <;> rfl
          have hp : player_char c = true := by rcases h3 with rfl | rfl <;> rfl
          have ih1' : acc2.bunnies = acc.bunnies ++ row_positions sleepy_char i (j + 1) cs :=
            ih1
          have ih2' : acc2.player =
              (row_positions player_char i (j + 1) cs).getLastD (i, j) := ih2
          rw [row_positions, row_positions, hs, hp]
          constructor
          · rw [if_neg Bool.false_ne_true, List.nil_append]
            exact ih1'
          · rw [if_pos rfl, List.singleton_append, List.getLastD_cons]
            exact ih2'
        · obtain ⟨-, hacc⟩ :
              Tile.grass = t ∧
                ({ acc with bunnies := acc.bunnies ++ [(i, j)] } : LoadAcc) = acc1 := by
            simpa using hst
          subst hacc
          have hs : sleepy_char c = true := by rcases h4 with rfl | rfl <;> rfl
          have hp : player_char c = false := by rcases h4 with rfl | rfl <;> rfl
          have ih1' : acc2.bunnies =
              (acc.bunnies ++ [(i, j)]) ++ row_positions sleepy_char i (j + 1) cs := ih1
          have ih2' : acc2.player =
              (row_positions player_char i (j + 1) cs).getLastD acc.player := ih2
          rw [row_positions, row_positions, hs, hp]
          constructor
          · rw [if_pos rfl, List.singleton_append, ih1', List.append_assoc,
              List.singleton_append]
          · rw [if_neg Bool.false_ne_true, List.nil_append]
            exact ih2'
        · obtain ⟨-, hacc⟩ :
              Tile.bed = t ∧
                ({ acc with beds := acc.beds ++ [(i, j)] } : LoadAcc) = acc1 := by
            simpa using hst
          subst hacc
          have hs : sleepy_char c = false := by rcases h5 with rfl | rfl <;> rfl
          have hp : player_char c = false := by rcases h5 with rfl | rfl <;> rfl
          have ih1' : acc2.bunnies = acc.bunnies ++ row_positions sleepy_char i (j + 1) cs :=
            ih1
          have ih2' : acc2.player =
              (row_positions player_char i (j + 1) cs).getLastD acc.player := ih2
          rw [row_positions, row_positions, hs, hp]
          constructor
          · rw [if_neg Bool.false_ne_true, List.nil_append]
            exact ih1'
          · rw [if_neg Bool.false_ne_true, List.nil_append]
            exact ih2'
        · obtain ⟨-, hacc⟩ :
              Tile.bed = t ∧
                ({ acc with beds := acc.beds ++ [(i, j)], player := (i, j) } : LoadAcc)
                  = acc1 := by
            simpa using hst
          subst hacc
          have hs : sleepy_char c = false := by rcases h6 with rfl | rfl <;> rfl
          have hp : player_char c = true := by rcases h6 with rfl | rfl <;> rfl
          have ih1' : acc2.bunnies = acc.bunnies ++ row_positions sleepy_char i (j + 1) cs :=
            ih1
          have ih2' : acc2.player =
              (row_positions player_char i (j + 1) cs).getLastD (i, j) := ih2
          rw [row_positions, row_positions, hs, hp]
          constructor
          · rw [if_neg Bool.false_ne_true, List.nil_append]
            exact ih1'
          · rw [if_pos rfl, List.singleton_append, List.getLastD_cons]
            exact ih2'
        · obtain ⟨-, hacc⟩ :
              Tile.bed = t ∧
                ({ acc with beds := acc.beds ++ [(i, j)], bunnies := acc.bunnies ++ [(i, j)] } : LoadAcc) = acc1 := by
            simpa using hst
          subst hacc
          have hs : sleepy_char c = true := by rcases h7 with rfl | rfl <;> rfl
          have hp : player_char c = false := by rcases h7 with rfl | rfl <;> rfl
          have ih1' : acc2.bunnies =
              (acc.bunnies ++ [(i, j)]) ++ row_positions sleepy_char i (j + 1) cs := ih1
          have ih2' : acc2.player =
              (row_positions player_char i (j + 1) cs).getLastD acc.player := ih2
          rw [row_positions, row_positions, hs, hp]
          constructor
          · rw [if_pos rfl, List.singleton_append, ih1', List.append_assoc,
              List.singleton_append]
          · rw [if_neg Bool.false_ne_true, List.nil_append]
            exact ih2'

/-- What the whole scan does to the accumulator. -/
theorem scan_rows_acc :
    ∀ (rs : List (List Char)) (i : Nat) (acc : LoadAcc) (board : Board) (acc' : LoadAcc),
      scan_rows i rs acc = some (board, acc') →
      acc'.bunnies = acc.bunnies ++ scan_positions_from sleepy_char i rs ∧
        acc'.player = (scan_positions_from player_char i rs).getLastD acc.player := by
  intro rs
  induction rs with
  | nil =>
    intro i acc board acc' h
    rw [scan_rows] at h
    simp only [Option.some.injEq, Prod.mk.injEq] at h
    rw [← h.2]
    simp [scan_positions_from]
  | cons r rs ih =>
    intro i acc board acc' h
    rw [scan_rows] at h
    rcases hsr : scan_row i 0 r acc with _ | ⟨row1, acc1⟩
    · rw [hsr] at h; simp at h
    · rw [hsr] at h
      dsimp only at h
      rcases hrs : scan_rows (i + 1) rs acc1 with _ | ⟨rows2, acc2⟩
      · rw [hrs] at h; simp at h
      · rw [hrs] at h
        simp only [Option.some.injEq, Prod.mk.injEq] at h
        rw [← h.2]
        obtain ⟨hr1, hr2⟩ := scan_row_acc r i 0 acc row1 acc1 hsr
        obtain ⟨hi1, hi2⟩ := ih (i + 1) acc1 rows2 acc2 hrs
        rw [scan_positions_from, scan_positions_from]
        constructor
        · rw [hi1, hr1, List.append_assoc]
        · rw [hi2, hr2, getLastD_append]

/-- Scanning a run of spaces yields no entity positions. -/
theorem row_positions_replicate (select : Char → Bool) (hsp : select ' ' = false)
    (i : Nat) : ∀ (k j : Nat), row_positions select i j (List.replicate k ' ') = [] := by
  intro k
  induction k with
  | zero => intro j; rfl
  | succ k ih =>
    intro j
    rw [List.replicate_succ, row_positions, hsp, ih]
    rfl

/-- Right-padding a row with spaces does not change the selected positions. -/
theorem row_positions_pad (select : Char → Bool) (hsp : select ' ' = false) (i : Nat) :
    ∀ (cs : List Char) (j k : Nat),
      row_positions select i j (cs ++ List.replicate k ' ') = row_positions select i j cs := by
  intro cs
  induction cs with
  | nil =>
    intro j k
    rw [List.nil_append, row_positions_replicate select hsp i k j]
    rfl
  | cons c cs ih =>
    intro j k
    rw [List.cons_append, row_positions, row_positions, ih]

/-- `list_max?` of a nonempty list is `some`. -/
theorem list_max?_eq_none : ∀ (l : List Nat), list_max? l = none → l = [] := by
  intro l h
  cases l with
  | nil => rfl
  | cons a l =>
    rw [list_max?] at h
    rcases hl : list_max? l with _ | m <;> rw [hl] at h <;> simp at h

/-- `list_max?` dominates every element. -/
theorem list_max?_ge : ∀ (l : List Nat) (n : Nat), list_max? l = some n → ∀ x ∈ l, x ≤ n := by
  intro l
  induction l with
  | nil => intro n _ x hx; simp at hx
  | cons a l ih =>
    intro n h x hx
    rw [list_max?] at h
    rcases hl : list_max? l with _ | m
    · rw [hl] at h
      dsimp only at h
      simp only [Option.some.injEq] at h
      subst h
      have hnil := list_max?_eq_none l hl
      subst hnil
      simp only [List.mem_cons, List.not_mem_nil, or_false] at hx
      omega
    · rw [hl] at h
      dsimp only at h
      simp only [Option.some.injEq] at h
      subst h
      rcases List.mem_cons.1 hx with rfl | hx2
      · exact Nat.le_max_left _ _
      · exact (ih m hl x hx2).trans (Nat.le_max_right _ _)

/-- Width normalization does not change the selected positions. -/
theorem scan_positions_from_pad (select : Char → Bool) (hsp : select ' ' = false) :
    ∀ (rows : List (List Char)) (i n : Nat), (∀ r ∈ rows, r.length ≤ n) →
      scan_positions_from select i (rows.map (fun row => resize_row row n)) =
        scan_positions_from select i rows := by
  intro rows
  induction rows with
  | nil => intro i n _; rfl
  | cons r rs ih =>
    intro i n hlen
    rw [List.map_cons, scan_positions_from, scan_positions_from]
    have hr : resize_row r n = r ++ List.replicate (n - r.length) ' ' := by
      rw [resize_row, List.take_of_length_le (hlen r (by simp))]
    rw [hr, row_positions_pad select hsp i r 0 (n - r.length),
      ih (i + 1) n (fun x hx => hlen x (by simp [hx]))]

/-- Claim C8: for well-formed level text (it loads successfully and has a
unique player character), the loaded entity vector has the player's position
in slot 0 and the sleepy starting positions in slots 1.. in *reverse*
row-major scan order; the starting vector is identical. -/
theorem claim8_entity_order
    (lines : List (List Char)) (level_no : Nat) (st : State) (pp : Bunny)
    (h : from_file lines level_no = some st)
    (hpp : scan_positions player_char lines = [pp]) :
    st.bunnies = pp :: (scan_positions sleepy_char lines).reverse ∧
      st.bunny_starts = st.bunnies := by
  rw [from_file] at h
  rcases hmax : list_max? (lines.map (fun l => l.length)) with _ | n
  · rw [hmax] at h; simp at h
  · rw [hmax] at h
    dsimp only at h
    rcases hscan : scan_rows 0 (lines.map (fun row => resize_row row n))
        { player := (0, 0), bunnies := [], beds := [] } with _ | ⟨board, acc⟩
    · rw [hscan] at h; simp at h
    · rw [hscan] at h
      dsimp only at h
      simp only [Option.some.injEq] at h
      obtain ⟨hb, hpl⟩ := scan_rows_acc _ 0 _ board acc hscan
      have hlen : ∀ r ∈ lines, r.length ≤ n := by
        intro r hr
        exact list_max?_ge _ n hmax r.length (List.mem_map_of_mem _ hr)
      have hsleepy :
          scan_positions_from sleepy_char 0 (lines.map (fun row => resize_row row n)) =
            scan_positions sleepy_char lines :=
        scan_positions_from_pad sleepy_char rfl lines 0 n hlen
      have hplayer :
          scan_positions_from player_char 0 (lines.map (fun row => resize_row row n)) =
            scan_positions player_char lines :=
        scan_positions_from_pad player_char rfl lines 0 n hlen
      rw [hsleepy] at hb
      rw [hplayer, hpp] at hpl
      constructor
      · rw [← h]
        simp only
        rw [hb, hpl]
        simp
      · rw [← h]

/-- A concrete loaded state for the C8 witness: level text `Tss` / `b`. -/
def sample_level_state : State :=
  { board := [[.tree, .grass, .grass], [.grass, .grass, .grass]],
    bunny_starts := [(1, 0), (0, 2), (0, 1)], beds := [],
    bunnies := [(1, 0), (0, 2), (0, 1)], level_no := 1, move_no := 0,
    history := [], won := false }

/-- Witness for C8 on a two-row level with two sleepies and a ragged second
row. -/
theorem claim8_witness :
    sample_level_state.bunnies =
        (1, 0) :: (scan_positions sleepy_char [['T', 's', 's'], ['b']]).reverse ∧
      sample_level_state.bunny_starts = sample_level_state.bunnies :=
  claim8_entity_order [['T', 's', 's'], ['b']] 1 sample_level_state (1, 0)
    (by decide) (by decide)

/-! ### Claims C3 and C4: counterexamples -/

/-- Claim C3, as stated, is false at `max_moves = 0`: the depth-cap test
`depths[&new_index] == max_moves` compares against the root depth 1, so with
`max_moves = 0` it never fires and the solver happily returns a path of one
move — more than `max_moves` moves.  Here the corridor start is solved with
one push although the move budget is 0. -/
theorem claim3_counterexample :
    solve corridor_state 0 100 50 5 =
        some (some ([[(1, 1), (1, 2)], [(1, 2), (1, 3)]], ⟨2, 0⟩)) ∧
      ¬ (([[(1, 1), (1, 2)], [(1, 2), (1, 3)]] : List (List Bunny)).length - 1 ≤ 0) := by
  exact ⟨by decide, by decide⟩

/-- Claim C4, as stated, is false at the budget boundary: vectors at depth
`max_moves` are dequeued but never expanded (the root has depth 1), so a
puzzle solvable in exactly `max_moves` moves yields no solution.  The
corridor is solvable in one push, `max_moves = 1` and `max_iters = 100` are
ample budgets, yet `solve` returns `none`. -/
theorem claim4_counterexample :
    solve corridor_state 1 100 50 5 = some none ∧
      move_bunny_solve corridor_state.board 3 corridor_state.bunnies PLAYER_INDEX
          Move.right = some (some [(1, 2), (1, 3)]) ∧
      check_win_solve corridor_state.beds [(1, 2), (1, 3)] = some true := by
  exact ⟨by decide, by decide, by decide⟩

/-! ### Fuel monotonicity of the pure move -/

/-- A normal return of `move_bunny_solve` is stable under extra fuel. -/
theorem move_bunny_solve_mono :
    ∀ (f f' : Nat), f ≤ f' →
      ∀ (board : Board) (bs : List Bunny) (i : Nat) (m : Move) (r : Option (List Bunny)),
        move_bunny_solve board f bs i m = some r →
        move_bunny_solve board f' bs i m = some r := by
  intro f
  induction f with
  | zero => intro f' _ board bs i m r h; simp [move_bunny_solve] at h
  | succ n ih =>
    intro f' hf board bs i m r h
    obtain ⟨n', rfl⟩ : ∃ n', f' = n' + 1 := ⟨f' - 1, by omega⟩
    have hn : n ≤ n' := by omega
    rw [move_bunny_solve] at h ⊢
    rcases hb : bs[i]? with _ | bunny
    · rw [hb] at h; simp at h
    · rw [hb] at h
      dsimp only at h ⊢
      rcases ht : tile_at board (dest_of bunny m) with _ | t
      · rw [ht] at h; simp at h
      · rw [ht] at h
        cases t
        · exact h
        all_goals {
          dsimp only at h ⊢
          rcases hpos : position (dest_of bunny m) bs with _ | k
          · rw [hpos] at h
            exact h
          · rw [hpos] at h
            dsimp only at h ⊢
            by_cases hpol : PUSH_MULTIPLE = false ∧ i ≠ PLAYER_INDEX
            · rw [if_pos hpol] at h ⊢
              exact h
            · rw [if_neg hpol] at h ⊢
              rcases hrec : move_bunny_solve board n bs k m with _ | rr
              · rw [hrec] at h
                simp at h
              · rw [hrec] at h
                rw [ih n' hn board bs k m rr hrec]
                exact h
        }

/-- Two normal returns of `move_bunny_solve` at any fuels agree. -/
theorem move_bunny_solve_det
    {f g : Nat} {board : Board} {bs : List Bunny} {i : Nat} {m : Move}
    {r r' : Option (List Bunny)}
    (h1 : move_bunny_solve board f bs i m = some r)
    (h2 : move_bunny_solve board g bs i m = some r') : r = r' := by
  rcases Nat.le_total f g with hle | hle
  · have hmono := move_bunny_solve_mono f g hle board bs i m r h1
    rw [hmono] at h2
    simpa using h2
  · have hmono := move_bunny_solve_mono g f hle board bs i m r' h2
    rw [hmono] at h1
    have : r' = r := by simpa using h1
    exact this.symm

/-! ### Association-list and range helpers for the solver -/

/-- A key dominated by a bound on all stored keys is absent. -/
theorem lookup_nat_fresh :
    ∀ (l : List (Nat × Nat)) (n : Nat), (∀ p ∈ l, p.1 < n) → lookup_nat l n = none := by
  intro l
  induction l with
  | nil => intro n _; rfl
  | cons p ps ih =>
    intro n hk
    rw [lookup_nat]
    rw [if_neg (by have := hk p (by simp); omega)]
    exact ih n (fun q hq => hk q (by simp [hq]))

/-- A successful lookup comes from a stored pair. -/
theorem lookup_nat_mem :
    ∀ (l : List (Nat × Nat)) (k v : Nat), lookup_nat l k = some v → (k, v) ∈ l := by
  intro l
  induction l with
  | nil => intro k v h; simp [lookup_nat] at h
  | cons p ps ih =>
    intro k v h
    rw [lookup_nat] at h
    split_ifs at h with hp
    · simp only [Option.some.injEq] at h
      have hpv : p = (k, v) := Prod.ext hp h
      rw [← hpv]
      exact List.mem_cons_self p ps
    · exact List.mem_cons_of_mem p (ih k v h)

/-- Prepending a fresh key preserves old lookups. -/
theorem lookup_nat_cons_ne (l : List (Nat × Nat)) (a v k : Nat) (h : a ≠ k) :
    lookup_nat ((a, v) :: l) k = lookup_nat l k := by
  rw [lookup_nat, if_neg h]

/-- Lookup of the prepended key. -/
theorem lookup_nat_cons_self (l : List (Nat × Nat)) (a v : Nat) :
    lookup_nat ((a, v) :: l) a = some v := by
  rw [lookup_nat, if_pos rfl]

/-- A positive `visited_contains` yields a stored pair with that key. -/
theorem visited_contains_exists :
    ∀ (v : List (List Bunny × Nat)) (key : List Bunny),
      visited_contains v key = true → ∃ idx, (key, idx) ∈ v := by
  intro v
  induction v with
  | nil => intro key h; simp [visited_contains] at h
  | cons p ps ih =>
    intro key h
    rw [visited_contains] at h
    split_ifs at h with hp
    · refine ⟨p.2, ?_⟩
      have hpv : p = (key, p.2) := Prod.ext hp rfl
      rw [← hpv]
      exact List.mem_cons_self p ps
    · obtain ⟨idx, hidx⟩ := ih key h
      exact ⟨idx, List.mem_cons_of_mem p hidx⟩

/-- Unfolding the head of the dequeued range suffix. -/
theorem range_drop_cons (n i : Nat) (hi : i < n) :
    (List.range n).drop i = i :: (List.range n).drop (i + 1) := by
  rw [List.drop_eq_getElem_cons (by simpa using hi)]
  simp

/-- Extending the range by one appends the new index to the suffix. -/
theorem range_drop_append (n i : Nat) (hi : i ≤ n) :
    (List.range n).drop i ++ [n] = (List.range (n + 1)).drop i := by
  rw [List.range_succ, List.drop_append_of_le_length (by simpa using hi)]

/-- A `some` entry bounds the index. -/
theorem getElem?_some_lt {α : Type} {l : List α} {j : Nat} {x : α}
    (h : l[j]? = some x) : j < l.length := by
  by_contra hc
  rw [List.getElem?_eq_none (by omega)] at h
  simp at h

/-- The solver-loop invariant, over the parameters of one `solve` call:
the arena indexes every discovered vector, the frontier is exactly the
undequeued suffix of arena indices in order, parent/depth entries record a
legal player move from parent to child with depth incrementing, depths are
monotone in discovery order and capped by `max_moves` (when positive), every
dequeued vector failed the win check, every dequeued uncapped vector has had
all four direction moves attempted with the results discovered, and the
dedup map points back into the arena. -/
structure Inv (board : Board) (beds : List Bunny) (mm fm : Nat) (start : List Bunny)
    (b : BfsState) : Prop where
  hlen0 : 0 < b.states.length
  hstart : b.states[0]? = some start
  hqueue : b.queue = (List.range b.states.length).drop b.iters
  hiters : b.iters ≤ b.states.length
  hiters0 : b.iters = 0 → b.states.length = 1
  hdepth0 : lookup_nat b.depths 0 = some 1
  hdepthkeys : ∀ p ∈ b.depths, p.1 < b.states.length
  hdepthtotal : ∀ i : Nat, i < b.states.length → ∃ d, lookup_nat b.depths i = some d
  hparent0 : lookup_nat b.parents 0 = none
  hparentkeys : ∀ p ∈ b.parents,
    1 ≤ p.1 ∧ p.1 < b.states.length ∧ p.2 < p.1 ∧ p.2 < b.iters
  hparenttotal : ∀ i : Nat, 1 ≤ i → i < b.states.length →
    ∃ q, lookup_nat b.parents i = some q
  hedge : ∀ i q : Nat, lookup_nat b.parents i = some q →
    ∃ sp si dq, b.states[q]? = some sp ∧ b.states[i]? = some si ∧
      lookup_nat b.depths q = some dq ∧ lookup_nat b.depths i = some (dq + 1) ∧
      ∃ m, move_bunny_solve board fm sp PLAYER_INDEX m = some (some si)
  hmono : ∀ i j di dj : Nat, i ≤ j → lookup_nat b.depths i = some di →
    lookup_nat b.depths j = some dj → di ≤ dj
  hcap : 1 ≤ mm → ∀ i d : Nat, lookup_nat b.depths i = some d → d ≤ mm
  hwinfalse : ∀ i : Nat, i < b.iters → ∃ si, b.states[i]? = some si ∧
    check_win_solve beds si = some false
  hexpand : ∀ i : Nat, i < b.iters → ∀ d, lookup_nat b.depths i = some d → d ≠ mm →
    ∀ si, b.states[i]? = some si → ∀ m : Move, ∃ r,
      move_bunny_solve board fm si PLAYER_INDEX m = some r ∧
      ∀ t, r = some t → ∃ j dj, b.states[j]? = some t ∧
        lookup_nat b.depths j = some dj ∧ dj ≤ d + 1
  hvisited : ∀ (key : List Bunny) (idx : Nat), (key, idx) ∈ b.visited →
    idx < b.states.length ∧ b.states[idx]? = some key
  hlastdepth : 0 < b.iters → ∀ dl, lookup_nat b.depths (b.iters - 1) = some dl →
    ∀ j dj : Nat, lookup_nat b.depths j = some dj → dj ≤ dl + 1

/-- One direction of a node's expansion completed: the pure move returned
normally, and any successful result is discovered with depth at most one
more than the node's. -/
def DirFact (board : Board) (fm : Nat) (ns : List Bunny) (d : Nat) (b : BfsState)
    (m : Move) : Prop :=
  ∃ r, move_bunny_solve board fm ns PLAYER_INDEX m = some r ∧
    ∀ t, r = some t → ∃ j dj, b.states[j]? = some t ∧
      lookup_nat b.depths j = some dj ∧ dj ≤ d + 1

/-- `DirFact` transfers along an arena extension. -/
theorem DirFact.transfer {board : Board} {fm : Nat} {ns : List Bunny} {d : Nat}
    {b' b'' : BfsState} {m : Move}
    (hs : ∀ j : Nat, j < b'.states.length → b''.states[j]? = b'.states[j]?)
    (hd : ∀ k : Nat, k < b'.states.length →
      lookup_nat b''.depths k = lookup_nat b'.depths k)
    (dir : DirFact board fm ns d b' m) : DirFact board fm ns d b'' m := by
  obtain ⟨r, hr, hdisc⟩ := dir
  refine ⟨r, hr, ?_⟩
  intro t ht
  obtain ⟨j, dj, hj1, hj2, hj3⟩ := hdisc t ht
  have hjlt : j < b'.states.length := getElem?_some_lt hj1
  exact ⟨j, dj, by rw [hs j hjlt]; exact hj1, by rw [hd j hjlt]; exact hj2, hj3⟩

/-- Everything one `expand_dir` call guarantees, relative to its input:
an arena extension preserving entries, lookups, the dedup map's soundness
and the key bounds; the frontier grows in step with the arena; any fresh
entry is the candidate of this direction at depth `d + 1` with parent `ni`;
and the direction's own `DirFact`. -/
structure ExpandOut (board : Board) (fm : Nat) (ns : List Bunny) (d ni : Nat)
    (m : Move) (b b' : BfsState) : Prop where
  ext_len : b.states.length ≤ b'.states.length
  states_pres : ∀ j : Nat, j < b.states.length → b'.states[j]? = b.states[j]?
  dlook : ∀ k : Nat, k < b.states.length →
    lookup_nat b'.depths k = lookup_nat b.depths k
  plook : ∀ k : Nat, k < b.states.length →
    lookup_nat b'.parents k = lookup_nat b.parents k
  iters_eq : b'.iters = b.iters
  vis : ∀ (key : List Bunny) (idx : Nat), (key, idx) ∈ b'.visited →
    idx < b'.states.length ∧ b'.states[idx]? = some key
  queue_eq : b'.queue = b.queue ++ (List.range b'.states.length).drop b.states.length
  dk : ∀ p ∈ b'.depths, p.1 < b'.states.length
  pk : ∀ p ∈ b'.parents, 1 ≤ p.1 ∧ p.1 < b'.states.length ∧ p.2 < p.1 ∧ p.2 < b.iters
  dt : ∀ i : Nat, i < b'.states.length → ∃ d', lookup_nat b'.depths i = some d'
  db : ∀ j dj : Nat, lookup_nat b'.depths j = some dj → dj ≤ d + 1
  newfact : ∀ j : Nat, b.states.length ≤ j → j < b'.states.length →
    ∃ cand, b'.states[j]? = some cand ∧ lookup_nat b'.depths j = some (d + 1) ∧
      lookup_nat b'.parents j = some ni ∧
      move_bunny_solve board fm ns PLAYER_INDEX m = some (some cand)
  dir : DirFact board fm ns d b' m

/-- The dequeued prefix of the index range is everything. -/
theorem range_drop_self (n : Nat) : (List.range n).drop n = [] := by
  have h := List.drop_length (List.range n)
  rwa [List.length_range] at h

/-- Only the new index remains after dequeuing the old arena. -/
theorem range_succ_drop_self (n : Nat) : (List.range (n + 1)).drop n = [n] := by
  rw [← range_drop_append n n (Nat.le_refl n), range_drop_self]
  rfl

/-- Specification of one `expand_dir` call. -/
theorem expand_dir_spec
    (board : Board) (fm : Nat) (ns : List Bunny) (ni d : Nat) (m : Move)
    (b b' : BfsState)
    (hlen0 : 0 < b.states.length)
    (hdk : ∀ p ∈ b.depths, p.1 < b.states.length)
    (hpk : ∀ p ∈ b.parents,
      1 ≤ p.1 ∧ p.1 < b.states.length ∧ p.2 < p.1 ∧ p.2 < b.iters)
    (hv : ∀ (key : List Bunny) (idx : Nat), (key, idx) ∈ b.visited →
      idx < b.states.length ∧ b.states[idx]? = some key)
    (hdt : ∀ i : Nat, i < b.states.length → ∃ dd, lookup_nat b.depths i = some dd)
    (hdb : ∀ j dj : Nat, lookup_nat b.depths j = some dj → dj ≤ d + 1)
    (hni : ni < b.states.length) (hni2 : ni < b.iters)
    (h : expand_dir board fm ns ni d m b = some b') :
    ExpandOut board fm ns d ni m b b' := by
  rw [expand_dir] at h
  rcases hmbs : move_bunny_solve board fm ns PLAYER_INDEX m with _ | r
  · rw [hmbs] at h; simp at h
  · rw [hmbs] at h
    rcases r with _ | cand
    · simp only [Option.some.injEq] at h
      subst h
      refine ⟨Nat.le_refl _, fun j _ => rfl, fun k _ => rfl, fun k _ => rfl, rfl, hv,
        ?_, hdk, hpk, hdt, hdb, ?_, ?_⟩
      · rw [range_drop_self, List.append_nil]
      · intro j hj1 hj2; omega
      · exact ⟨none, hmbs, fun t ht => by simp at ht⟩
    · dsimp only at h
      by_cases hvc : visited_contains b.visited cand = true
      · rw [if_pos hvc] at h
        simp only [Option.some.injEq] at h
        subst h
        refine ⟨Nat.le_refl _, fun j _ => rfl, fun k _ => rfl, fun k _ => rfl, rfl, hv,
          ?_, hdk, hpk, hdt, hdb, ?_, ?_⟩
        · rw [range_drop_self, List.append_nil]
        · intro j hj1 hj2; omega
        · refine ⟨some cand, hmbs, ?_⟩
          intro t ht
          have htc : t = cand := by simpa using ht.symm
          rw [htc]
          obtain ⟨idx, hidx⟩ := visited_contains_exists b.visited cand hvc
          obtain ⟨hlt, hst⟩ := hv cand idx hidx
          obtain ⟨dj, hdj⟩ := hdt idx hlt
          exact ⟨idx, dj, hst, hdj, hdb idx dj hdj⟩
      · rw [if_neg hvc] at h
        simp only [Option.some.injEq] at h
        subst h
        have hlen : (b.states ++ [cand]).length = b.states.length + 1 := by simp
        have hat : (b.states ++ [cand])[b.states.length]? = some cand :=
          List.getElem?_concat_length b.states cand
        have hpres : ∀ j : Nat, j < b.states.length →
            (b.states ++ [cand])[j]? = b.states[j]? := by
          intro j hj
          rw [List.getElem?_append, if_pos hj]
        refine ⟨?_, hpres, ?_, ?_, rfl, ?_, ?_, ?_, ?_, ?_, ?_, ?_, ?_⟩
        · simp
        · intro k hk
          exact lookup_nat_cons_ne b.depths b.states.length (d + 1) k (by omega)
        · intro k hk
          exact lookup_nat_cons_ne b.parents b.states.length ni k (by omega)
        · intro key idx hmem
          rcases List.mem_cons.1 hmem with heq | hmem2
          · have h1 : key = cand := congrArg Prod.fst heq
            have h2 : idx = b.states.length := congrArg Prod.snd heq
            subst h1
            subst h2
            exact ⟨by simp, hat⟩
          · obtain ⟨hlt, hst⟩ := hv key idx hmem2
            exact ⟨by simp; omega, by rw [hpres idx hlt]; exact hst⟩
        · rw [hlen, range_succ_drop_self]
        · intro p hp
          rcases List.mem_cons.1 hp with heq | hp2
          · rw [heq]; simp
          · have := hdk p hp2; simp; omega
        · intro p hp
          rcases List.mem_cons.1 hp with heq | hp2
          · rw [heq]
            refine ⟨by simpa using hlen0, by simp, by simpa using hni, by simpa using hni2⟩
          · obtain ⟨a1, a2, a3, a4⟩ := hpk p hp2
            exact ⟨a1, by simp; omega, a3, a4⟩
        · intro i hi
          rw [hlen] at hi
          by_cases hieq : b.states.length = i
          · subst hieq
            exact ⟨d + 1, lookup_nat_cons_self b.depths b.states.length (d + 1)⟩
          · obtain ⟨dd, hdd⟩ := hdt i (by omega)
            exact ⟨dd, by
              rw [lookup_nat_cons_ne b.depths b.states.length (d + 1) i hieq]
              exact hdd⟩
        · intro j dj hl
          by_cases hjeq : b.states.length = j
          · subst hjeq
            rw [lookup_nat_cons_self] at hl
            simp only [Option.some.injEq] at hl
            omega
          · rw [lookup_nat_cons_ne b.depths b.states.length (d + 1) j hjeq] at hl
            exact hdb j dj hl
        · intro j hj1 hj2
          rw [hlen] at hj2
          have hjeq : j = b.states.length := by omega
          subst hjeq
          exact ⟨cand, hat, lookup_nat_cons_self _ _ _, lookup_nat_cons_self _ _ _, hmbs⟩
        · refine ⟨some cand, hmbs, ?_⟩
          intro t ht
          have htc : t = cand := by simpa using ht.symm
          rw [htc]
          exact ⟨b.states.length, d + 1, hat, lookup_nat_cons_self _ _ _, Nat.le_refl _⟩

/-- Splitting a dropped range at an intermediate bound. -/
theorem range_drop_split :
    ∀ (m n it : Nat), it ≤ n → n ≤ m →
      (List.range n).drop it ++ (List.range m).drop n = (List.range m).drop it := by
  intro m
  induction m with
  | zero =>
    intro n it h1 h2
    have hn : n = 0 := by omega
    subst hn
    have hit : it = 0 := by omega
    subst hit
    rfl
  | succ m ih =>
    intro n it h1 h2
    rcases Nat.lt_or_ge n (m + 1) with hlt | hge
    · have hnm : n ≤ m := by omega
      rw [List.range_succ,
        List.drop_append_of_le_length (by simpa using hnm),
        List.drop_append_of_le_length (by simpa using (h1.trans hnm)),
        ← List.append_assoc, ih n it h1 hnm]
    · have hnm : n = m + 1 := by omega
      subst hnm
      rw [range_drop_self, List.append_nil]

/-- An arena extension: entries, depth and parent lookups on old indices, and
the iteration counter are preserved. -/
structure Ext (b b' : BfsState) : Prop where
  len_le : b.states.length ≤ b'.states.length
  states_pres : ∀ j : Nat, j < b.states.length → b'.states[j]? = b.states[j]?
  dlook : ∀ k : Nat, k < b.states.length →
    lookup_nat b'.depths k = lookup_nat b.depths k
  plook : ∀ k : Nat, k < b.states.length →
    lookup_nat b'.parents k = lookup_nat b.parents k
  iters_eq : b'.iters = b.iters

theorem Ext.refl_ext (b : BfsState) : Ext b b :=
  ⟨Nat.le_refl _, fun _ _ => Eq.refl _, fun _ _ => Eq.refl _, fun _ _ => Eq.refl _,
    Eq.refl _⟩

theorem Ext.comp {a b c : BfsState} (h1 : Ext a b) (h2 : Ext b c) : Ext a c := by
  have hab := h1.len_le
  refine ⟨hab.trans h2.len_le, ?_, ?_, ?_, h2.iters_eq.trans h1.iters_eq⟩
  · intro j hj
    rw [h2.states_pres j (by omega), h1.states_pres j hj]
  · intro k hk
    rw [h2.dlook k (by omega), h1.dlook k hk]
  · intro k hk
    rw [h2.plook k (by omega), h1.plook k hk]

theorem ExpandOut.toExt {board : Board} {fm : Nat} {ns : List Bunny} {d ni : Nat}
    {m : Move} {b b' : BfsState} (e : ExpandOut board fm ns d ni m b b') : Ext b b' :=
  ⟨e.ext_len, e.states_pres, e.dlook, e.plook, e.iters_eq⟩

/-- Classify a depth entry after one expansion: an old entry, or the fresh
candidate at depth `d + 1`. -/
theorem ExpandOut.depth_class {board : Board} {fm : Nat} {ns : List Bunny}
    {d ni : Nat} {m : Move} {b b' : BfsState}
    (e : ExpandOut board fm ns d ni m b b') :
    ∀ k v : Nat, lookup_nat b'.depths k = some v →
      (k < b.states.length ∧ lookup_nat b.depths k = some v) ∨
      (b.states.length ≤ k ∧ k < b'.states.length ∧ v = d + 1) := by
  intro k v hl
  have hk : k < b'.states.length := e.dk (k, v) (lookup_nat_mem _ _ _ hl)
  rcases Nat.lt_or_ge k b.states.length with hlt | hge
  · left
    refine ⟨hlt, ?_⟩
    rw [← e.dlook k hlt]
    exact hl
  · right
    obtain ⟨cand, _, hdep, _, _⟩ := e.newfact k hge hk
    rw [hdep] at hl
    simp only [Option.some.injEq] at hl
    exact ⟨hge, hk, hl.symm⟩

/-- Classify a parent entry after one expansion. -/
theorem ExpandOut.parent_class {board : Board} {fm : Nat} {ns : List Bunny}
    {d ni : Nat} {m : Move} {b b' : BfsState}
    (e : ExpandOut board fm ns d ni m b b') :
    ∀ k q : Nat, lookup_nat b'.parents k = some q →
      (k < b.states.length ∧ lookup_nat b.parents k = some q) ∨
      (b.states.length ≤ k ∧ k < b'.states.length ∧ q = ni ∧
        ∃ cand, b'.states[k]? = some cand ∧ lookup_nat b'.depths k = some (d + 1) ∧
          move_bunny_solve board fm ns PLAYER_INDEX m = some (some cand)) := by
  intro k q hl
  have hk : k < b'.states.length := (e.pk (k, q) (lookup_nat_mem _ _ _ hl)).2.1
  rcases Nat.lt_or_ge k b.states.length with hlt | hge
  · left
    refine ⟨hlt, ?_⟩
    rw [← e.plook k hlt]
    exact hl
  · right
    obtain ⟨cand, hst, hdep, hpar, hmv⟩ := e.newfact k hge hk
    rw [hpar] at hl
    simp only [Option.some.injEq] at hl
    exact ⟨hge, hk, hl.symm, cand, hst, hdep, hmv⟩

/-- The facts exported by the search loop when it stops at a winning index:
the arena root is the start, parent/depth entries encode legal moves with
correct depths, depths are monotone and capped, every index before the winner
was dequeued with a false win check and (when uncapped) fully expanded, and
the winner's vector passes the win check. -/
structure WinOut (board : Board) (beds : List Bunny) (mm fm : Nat)
    (start : List Bunny) (w : Nat) (b' : BfsState) : Prop where
  hstart : b'.states[0]? = some start
  hdepth0 : lookup_nat b'.depths 0 = some 1
  hparent0 : lookup_nat b'.parents 0 = none
  hparentkeys : ∀ p ∈ b'.parents, 1 ≤ p.1 ∧ p.1 < b'.states.length ∧ p.2 < p.1
  hparenttotal : ∀ i : Nat, 1 ≤ i → i < b'.states.length →
    ∃ q, lookup_nat b'.parents i = some q
  hedge : ∀ i q : Nat, lookup_nat b'.parents i = some q →
    ∃ sp si dq, b'.states[q]? = some sp ∧ b'.states[i]? = some si ∧
      lookup_nat b'.depths q = some dq ∧ lookup_nat b'.depths i = some (dq + 1) ∧
      ∃ m, move_bunny_solve board fm sp PLAYER_INDEX m = some (some si)
  hmono : ∀ i j di dj : Nat, i ≤ j → lookup_nat b'.depths i = some di →
    lookup_nat b'.depths j = some dj → di ≤ dj
  hcap : 1 ≤ mm → ∀ i d : Nat, lookup_nat b'.depths i = some d → d ≤ mm
  hdepthtotal : ∀ i : Nat, i < b'.states.length → ∃ d, lookup_nat b'.depths i = some d
  hwlt : w < b'.states.length
  hwin : ∃ sw, b'.states[w]? = some sw ∧ check_win_solve beds sw = some true
  hwinfalse : ∀ i : Nat, i < w → ∃ si, b'.states[i]? = some si ∧
    check_win_solve beds si = some false
  hexpand : ∀ i : Nat, i < w → ∀ d, lookup_nat b'.depths i = some d → d ≠ mm →
    ∀ si, b'.states[i]? = some si → ∀ m : Move, ∃ r,
      move_bunny_solve board fm si PLAYER_INDEX m = some r ∧
      ∀ t, r = some t → ∃ j dj, b'.states[j]? = some t ∧
        lookup_nat b'.depths j = some dj ∧ dj ≤ d + 1

/-- Propagating the frontier/arena correspondence across one expansion. -/
theorem queue_step (it : Nat) (x y : BfsState) (hit : it ≤ x.states.length)
    (hx : x.queue = (List.range x.states.length).drop it)
    (hy : y.queue = x.queue ++ (List.range y.states.length).drop x.states.length)
    (hlen : x.states.length ≤ y.states.length) :
    y.queue = (List.range y.states.length).drop it := by
  rw [hy, hx, range_drop_split y.states.length x.states.length it hit hlen]

/-- All depths discovered so far are at most one more than the depth of the
vector being dequeued. -/
theorem inv_hdb (board : Board) (beds : List Bunny) (mm fm : Nat)
    (start : List Bunny) (b : BfsState)
    (inv : Inv board beds mm fm start b)
    (dcur : Nat) (hdl : lookup_nat b.depths b.iters = some dcur) :
    ∀ j dj : Nat, lookup_nat b.depths j = some dj → dj ≤ dcur + 1 := by
  intro j dj hj
  rcases Nat.eq_zero_or_pos b.iters with hz | hp
  · have hlen1 := inv.hiters0 hz
    have hkey : j < b.states.length := inv.hdepthkeys (j, dj) (lookup_nat_mem _ _ _ hj)
    have hj0 : j = 0 := by omega
    subst hj0
    rw [inv.hdepth0] at hj
    simp only [Option.some.injEq] at hj
    rw [hz] at hdl
    rw [inv.hdepth0] at hdl
    simp only [Option.some.injEq] at hdl
    omega
  · have hkey : b.iters < b.states.length :=
      inv.hdepthkeys (b.iters, dcur) (lookup_nat_mem _ _ _ hdl)
    obtain ⟨dl, hdl'⟩ := inv.hdepthtotal (b.iters - 1) (by omega)
    have h1 := inv.hlastdepth hp dl hdl' j dj hj
    have h2 := inv.hmono (b.iters - 1) b.iters dl dcur (by omega) hdl' hdl
    omega

/-- Expanding all four directions of the dequeued vector preserves the loop
invariant. -/
theorem expand_quad_inv
    (board : Board) (beds : List Bunny) (mm fm : Nat) (start : List Bunny)
    (b : BfsState) (inv : Inv board beds mm fm start b)
    (hlt : b.iters < b.states.length)
    (ns : List Bunny) (hns : b.states[b.iters]? = some ns)
    (hcw : check_win_solve beds ns = some false)
    (dcur : Nat) (hdl : lookup_nat b.depths b.iters = some dcur) (hdm : dcur ≠ mm)
    (bU bD bL bR : BfsState)
    (hE1 : expand_dir board fm ns b.iters dcur Move.up
        { b with queue := (List.range b.states.length).drop (b.iters + 1),
                 iters := b.iters + 1 } = some bU)
    (hE2 : expand_dir board fm ns b.iters dcur Move.down bU = some bD)
    (hE3 : expand_dir board fm ns b.iters dcur Move.left bD = some bL)
    (hE4 : expand_dir board fm ns b.iters dcur Move.right bL = some bR) :
    Inv board beds mm fm start bR := by
  have hdb := inv_hdb board beds mm fm start b inv dcur hdl
  have E1 : ExpandOut board fm ns dcur b.iters Move.up
      { b with queue := (List.range b.states.length).drop (b.iters + 1),
               iters := b.iters + 1 } bU := by
    refine expand_dir_spec board fm ns b.iters dcur Move.up _ bU
      inv.hlen0 inv.hdepthkeys ?_ inv.hvisited inv.hdepthtotal hdb hlt
      (Nat.lt_succ_self b.iters) hE1
    intro p hp
    obtain ⟨a1, a2, a3, a4⟩ := inv.hparentkeys p hp
    exact ⟨a1, a2, a3, by simp only; omega⟩
  have E2 : ExpandOut board fm ns dcur b.iters Move.down bU bD := by
    refine expand_dir_spec board fm ns b.iters dcur Move.down bU bD
      (Nat.lt_of_lt_of_le inv.hlen0 E1.ext_len) E1.dk ?_ E1.vis E1.dt E1.db
      (Nat.lt_of_lt_of_le hlt E1.ext_len) ?_ hE2
    · intro p hp
      obtain ⟨a1, a2, a3, a4⟩ := E1.pk p hp
      refine ⟨a1, a2, a3, ?_⟩
      rw [E1.iters_eq]
      exact a4
    · rw [E1.iters_eq]
      exact Nat.lt_succ_self b.iters
  have E3 : ExpandOut board fm ns dcur b.iters Move.left bD bL := by
    refine expand_dir_spec board fm ns b.iters dcur Move.left bD bL
      (Nat.lt_of_lt_of_le inv.hlen0 (E1.ext_len.trans E2.ext_len)) E2.dk ?_ E2.vis
      E2.dt E2.db (Nat.lt_of_lt_of_le hlt (E1.ext_len.trans E2.ext_len)) ?_ hE3
    · intro p hp
      obtain ⟨a1, a2, a3, a4⟩ := E2.pk p hp
      refine ⟨a1, a2, a3, ?_⟩
      rw [E2.iters_eq]
      exact a4
    · rw [E2.iters_eq, E1.iters_eq]
      exact Nat.lt_succ_self b.iters
  have E4 : ExpandOut board fm ns dcur b.iters Move.right bL bR := by
    refine expand_dir_spec board fm ns b.iters dcur Move.right bL bR
      (Nat.lt_of_lt_of_le inv.hlen0 ((E1.ext_len.trans E2.ext_len).trans E3.ext_len))
      E3.dk ?_ E3.vis E3.dt E3.db
      (Nat.lt_of_lt_of_le hlt ((E1.ext_len.trans E2.ext_len).trans E3.ext_len)) ?_ hE4
    · intro p hp
      obtain ⟨a1, a2, a3, a4⟩ := E3.pk p hp
      refine ⟨a1, a2, a3, ?_⟩
      rw [E3.iters_eq]
      exact a4
    · rw [E3.iters_eq, E2.iters_eq, E1.iters_eq]
      exact Nat.lt_succ_self b.iters
  have extUR : Ext bU bR := E2.toExt.comp (E3.toExt.comp E4.toExt)
  have extDR : Ext bD bR := E3.toExt.comp E4.toExt
  have extLR : Ext bL bR := E4.toExt
  have ext : Ext { b with queue := (List.range b.states.length).drop (b.iters + 1), iters := b.iters + 1 } bR :=
    E1.toExt.comp extUR
  have hlen_le : b.states.length ≤ bR.states.length := ext.len_le
  have hpres : ∀ j : Nat, j < b.states.length → bR.states[j]? = b.states[j]? :=
    ext.states_pres
  have hdlk : ∀ k : Nat, k < b.states.length →
      lookup_nat bR.depths k = lookup_nat b.depths k := ext.dlook
  have hplk : ∀ k : Nat, k < b.states.length →
      lookup_nat bR.parents k = lookup_nat b.parents k := ext.plook
  have hitR : bR.iters = b.iters + 1 := ext.iters_eq
  have hclass : ∀ k v : Nat, lookup_nat bR.depths k = some v →
      (k < b.states.length ∧ lookup_nat b.depths k = some v) ∨
      (b.states.length ≤ k ∧ k < bR.states.length ∧ v = dcur + 1) := by
    intro k v hv
    rcases E4.depth_class k v hv with ⟨hk, hv'⟩ | ⟨hk1, hk2, hveq⟩
    · rcases E3.depth_class k v hv' with ⟨hk', hv''⟩ | ⟨hk1, hk2, hveq⟩
      · rcases E2.depth_class k v hv'' with ⟨hk'', hv3⟩ | ⟨hk1, hk2, hveq⟩
        · rcases E1.depth_class k v hv3 with ⟨hk3, hv4⟩ | ⟨hk1, hk2, hveq⟩
          · exact Or.inl ⟨hk3, hv4⟩
          · exact Or.inr ⟨hk1, by
              have := extUR.len_le
              omega, hveq⟩
        · exact Or.inr ⟨Nat.le_trans E1.ext_len hk1, by
            have := extDR.len_le
            omega, hveq⟩
      · exact Or.inr ⟨Nat.le_trans (E1.ext_len.trans E2.ext_len) hk1, by
          have := extLR.len_le
          omega, hveq⟩
    · exact Or.inr ⟨Nat.le_trans ((E1.ext_len.trans E2.ext_len).trans E3.ext_len) hk1,
        hk2, hveq⟩
  have hnewdir : ∀ k q : Nat, lookup_nat bR.parents k = some q →
      (k < b.states.length ∧ lookup_nat b.parents k = some q) ∨
      (b.states.length ≤ k ∧ k < bR.states.length ∧ q = b.iters ∧
        ∃ cand m, bR.states[k]? = some cand ∧ lookup_nat bR.depths k = some (dcur + 1) ∧
          move_bunny_solve board fm ns PLAYER_INDEX m = some (some cand)) := by
    intro k q hq
    rcases E4.parent_class k q hq with ⟨hk, hq'⟩ | ⟨hk1, hk2, hqe, cand, hc1, hc2, hc3⟩
    · rcases E3.parent_class k q hq' with ⟨hk', hq''⟩ | ⟨hk1, hk2, hqe, cand, hc1, hc2, hc3⟩
      · rcases E2.parent_class k q hq'' with ⟨hk'', hq3⟩ | ⟨hk1, hk2, hqe, cand, hc1, hc2, hc3⟩
        · rcases E1.parent_class k q hq3 with ⟨hk3, hq4⟩ | ⟨hk1, hk2, hqe, cand, hc1, hc2, hc3⟩
          · exact Or.inl ⟨hk3, hq4⟩
          · refine Or.inr ⟨hk1, by have := extUR.len_le; omega, hqe, cand, Move.up, ?_, ?_, hc3⟩
            · rw [extUR.states_pres k hk2]; exact hc1
            · rw [extUR.dlook k hk2]; exact hc2
        · refine Or.inr ⟨Nat.le_trans E1.ext_len hk1, by have := extDR.len_le; omega,
            hqe, cand, Move.down, ?_, ?_, hc3⟩
          · rw [extDR.states_pres k hk2]; exact hc1
          · rw [extDR.dlook k hk2]; exact hc2
      · refine Or.inr ⟨Nat.le_trans (E1.ext_len.trans E2.ext_len) hk1,
          by have := extLR.len_le; omega, hqe, cand, Move.left, ?_, ?_, hc3⟩
        · rw [extLR.states_pres k hk2]; exact hc1
        · rw [extLR.dlook k hk2]; exact hc2
    · exact Or.inr ⟨Nat.le_trans ((E1.ext_len.trans E2.ext_len).trans E3.ext_len) hk1,
        hk2, hqe, cand, Move.right, hc1, hc2, hc3⟩
  have hdRi : lookup_nat bR.depths b.iters = some dcur := by
    rw [hdlk b.iters hlt]
    exact hdl
  refine ⟨Nat.lt_of_lt_of_le inv.hlen0 hlen_le, ?_, ?_, ?_, ?_, ?_, E4.dk, E4.dt, ?_,
    ?_, ?_, ?_, ?_, ?_, ?_, ?_, E4.vis, ?_⟩
  · -- hstart
    rw [hpres 0 inv.hlen0]
    exact inv.hstart
  · -- hqueue
    have hq1 : ({ b with queue := (List.range b.states.length).drop (b.iters + 1), iters := b.iters + 1 } : BfsState).queue = (List.range b.states.length).drop (b.iters + 1) :=
      rfl
    have hqU := queue_step (b.iters + 1) _ bU (by simpa using hlt) hq1
      E1.queue_eq E1.ext_len
    have hqD := queue_step (b.iters + 1) bU bD
      (Nat.le_trans (by simpa using hlt) E1.ext_len) hqU E2.queue_eq E2.ext_len
    have hqL := queue_step (b.iters + 1) bD bL
      (Nat.le_trans (by simpa using hlt) (E1.ext_len.trans E2.ext_len)) hqD
      E3.queue_eq E3.ext_len
    have hqR := queue_step (b.iters + 1) bL bR
      (Nat.le_trans (by simpa using hlt) ((E1.ext_len.trans E2.ext_len).trans E3.ext_len))
      hqL E4.queue_eq E4.ext_len
    rw [hitR]
    exact hqR
  · -- hiters
    rw [hitR]
    omega
  · -- hiters0
    intro hz
    rw [hitR] at hz
    omega
  · -- hdepth0
    rw [hdlk 0 inv.hlen0]
    exact inv.hdepth0
  · -- hparent0
    rw [hplk 0 inv.hlen0]
    exact inv.hparent0
  · -- hparentkeys
    intro p hp
    obtain ⟨a1, a2, a3, a4⟩ := E4.pk p hp
    refine ⟨a1, a2, a3, ?_⟩
    rw [E4.iters_eq]
    exact a4
  · -- hparenttotal
    intro i h1 h2
    rcases Nat.lt_or_ge i b.states.length with hlt' | hge
    · obtain ⟨q, hq⟩ := inv.hparenttotal i h1 hlt'
      exact ⟨q, by rw [hplk i hlt']; exact hq⟩
    · rcases Nat.lt_or_ge i bU.states.length with hu | hu
      · obtain ⟨cand, _, _, hpar, _⟩ := E1.newfact i hge hu
        exact ⟨b.iters, by rw [extUR.plook i hu]; exact hpar⟩
      · rcases Nat.lt_or_ge i bD.states.length with hd2 | hd2
        · obtain ⟨cand, _, _, hpar, _⟩ := E2.newfact i hu hd2
          exact ⟨b.iters, by rw [extDR.plook i hd2]; exact hpar⟩
        · rcases Nat.lt_or_ge i bL.states.length with hl2 | hl2
          · obtain ⟨cand, _, _, hpar, _⟩ := E3.newfact i hd2 hl2
            exact ⟨b.iters, by rw [extLR.plook i hl2]; exact hpar⟩
          · obtain ⟨cand, _, _, hpar, _⟩ := E4.newfact i hl2 h2
            exact ⟨b.iters, hpar⟩
  · -- hedge
    intro i q hq
    rcases hnewdir i q hq with ⟨hk, hq'⟩ | ⟨hk1, hk2, hqe, cand, m, hc1, hc2, hc3⟩
    · obtain ⟨sp, si, dq, hsp, hsi, hdq, hdi, m, hm⟩ := inv.hedge i q hq'
      have hqlt : q < b.states.length := getElem?_some_lt hsp
      have hilt : i < b.states.length := getElem?_some_lt hsi
      exact ⟨sp, si, dq, by rw [hpres q hqlt]; exact hsp, by rw [hpres i hilt]; exact hsi,
        by rw [hdlk q hqlt]; exact hdq, by rw [hdlk i hilt]; exact hdi, m, hm⟩
    · subst hqe
      exact ⟨ns, cand, dcur, by rw [hpres b.iters hlt]; exact hns, hc1, hdRi, hc2, m, hc3⟩
  · -- hmono
    intro i j di dj hij hdi hdj
    rcases hclass i di hdi with ⟨hi1, hi2⟩ | ⟨hi1, hi2, hi3⟩
    · rcases hclass j dj hdj with ⟨hj1, hj2⟩ | ⟨hj1, hj2, hj3⟩
      · exact inv.hmono i j di dj hij hi2 hj2
      · rw [hj3]
        exact hdb i di hi2
    · rcases hclass j dj hdj with ⟨hj1, hj2⟩ | ⟨hj1, hj2, hj3⟩
      · omega
      · omega
  · -- hcap
    intro hmm i d hd
    rcases hclass i d hd with ⟨hi1, hi2⟩ | ⟨hi1, hi2, hi3⟩
    · exact inv.hcap hmm i d hi2
    · have hle := inv.hcap hmm b.iters dcur hdl
      omega
  · -- hwinfalse
    intro i hi
    rw [hitR] at hi
    rcases Nat.lt_or_ge i b.iters with hi2 | hi2
    · obtain ⟨si, hsi, hwf⟩ := inv.hwinfalse i hi2
      exact ⟨si, by rw [hpres i (getElem?_some_lt hsi)]; exact hsi, hwf⟩
    · have hieq : i = b.iters := by omega
      subst hieq
      exact ⟨ns, by rw [hpres b.iters hlt]; exact hns, hcw⟩
  · -- hexpand
    intro i hi d hd hdnm si hsi m
    rw [hitR] at hi
    rcases Nat.lt_or_ge i b.iters with hi2 | hi2
    · have hilt : i < b.states.length := by omega
      rw [hdlk i hilt] at hd
      rw [hpres i hilt] at hsi
      obtain ⟨r, hr, hdisc⟩ := inv.hexpand i hi2 d hd hdnm si hsi m
      refine ⟨r, hr, ?_⟩
      intro t ht
      obtain ⟨j, dj, hj1, hj2, hj3⟩ := hdisc t ht
      have hjlt : j < b.states.length := getElem?_some_lt hj1
      exact ⟨j, dj, by rw [hpres j hjlt]; exact hj1, by rw [hdlk j hjlt]; exact hj2, hj3⟩
    · have hieq : i = b.iters := by omega
      subst hieq
      rw [hdRi] at hd
      simp only [Option.some.injEq] at hd
      subst hd
      rw [hpres b.iters hlt, hns] at hsi
      simp only [Option.some.injEq] at hsi
      subst hsi
      cases m
      · exact DirFact.transfer extUR.states_pres extUR.dlook E1.dir
      · exact DirFact.transfer extDR.states_pres extDR.dlook E2.dir
      · exact DirFact.transfer extLR.states_pres extLR.dlook E3.dir
      · exact E4.dir
  · -- hlastdepth
    intro hz dl hdl2 j dj hj
    rw [hitR] at hdl2
    simp only [Nat.add_sub_cancel] at hdl2
    rw [hdRi] at hdl2
    simp only [Option.some.injEq] at hdl2
    subst hdl2
    rcases hclass j dj hj with ⟨hj1, hj2⟩ | ⟨hj1, hj2, hj3⟩
    · exact hdb j dj hj2
    · omega

/-- Dequeuing a vector whose depth equals `max_moves` (skipping expansion)
preserves the loop invariant. -/
theorem dequeue_capped_inv
    (board : Board) (beds : List Bunny) (mm fm : Nat) (start : List Bunny)
    (b : BfsState) (inv : Inv board beds mm fm start b)
    (hlt : b.iters < b.states.length)
    (ns : List Bunny) (hns : b.states[b.iters]? = some ns)
    (hcw : check_win_solve beds ns = some false)
    (dcur : Nat) (hdl : lookup_nat b.depths b.iters = some dcur) (hdm : dcur = mm) :
    Inv board beds mm fm start
      { b with queue := (List.range b.states.length).drop (b.iters + 1), iters := b.iters + 1 } := by
  have hdb := inv_hdb board beds mm fm start b inv dcur hdl
  refine ⟨inv.hlen0, inv.hstart, rfl, by simp only; omega, by simp only; omega,
    inv.hdepth0, inv.hdepthkeys, inv.hdepthtotal, inv.hparent0, ?_,
    inv.hparenttotal, inv.hedge, inv.hmono, inv.hcap, ?_, ?_, inv.hvisited, ?_⟩
  · intro p hp
    obtain ⟨a1, a2, a3, a4⟩ := inv.hparentkeys p hp
    exact ⟨a1, a2, a3, by simp only; omega⟩
  · intro i hi
    simp only at hi
    rcases Nat.lt_or_ge i b.iters with hi2 | hi2
    · exact inv.hwinfalse i hi2
    · have hieq : i = b.iters := by omega
      subst hieq
      exact ⟨ns, hns, hcw⟩
  · intro i hi d hd hdnm si hsi m
    simp only at hi hd hsi
    rcases Nat.lt_or_ge i b.iters with hi2 | hi2
    · exact inv.hexpand i hi2 d hd hdnm si hsi m
    · have hieq : i = b.iters := by omega
      subst hieq
      rw [hdl] at hd
      simp only [Option.some.injEq] at hd
      omega
  · intro hz dl hdl2 j dj hj
    simp only [Nat.add_sub_cancel] at hdl2
    simp only at hj
    rw [hdl] at hdl2
    simp only [Option.some.injEq] at hdl2
    subst hdl2
    exact hdb j dj hj

/-- The search loop, started from an invariant state, exports `WinOut` when
it stops at a winning index. -/
theorem solve_loop_win
    (board : Board) (beds : List Bunny) (mm mi fm : Nat) (start : List Bunny) :
    ∀ (fl : Nat) (b : BfsState) (w : Nat) (b' : BfsState),
      Inv board beds mm fm start b →
      solve_loop board beds mm mi fm fl b = some (some w, b') →
      WinOut board beds mm fm start w b' := by
  intro fl
  induction fl with
  | zero => intro b w b' inv h; simp [solve_loop] at h
  | succ n ih =>
    intro b w b' inv h
    rw [solve_loop] at h
    rcases hq : b.queue with _ | ⟨new_index, rest⟩
    · rw [hq] at h; simp at h
    · rw [hq] at h
      dsimp only at h
      have hqd : (List.range b.states.length).drop b.iters = new_index :: rest := by
        rw [← inv.hqueue]
        exact hq
      have hlt : b.iters < b.states.length := by
        by_contra hc
        rw [List.drop_eq_nil_of_le (by simpa using (by omega : b.states.length ≤ b.iters))]
          at hqd
        simp at hqd
      rw [range_drop_cons _ _ hlt] at hqd
      simp only [List.cons.injEq] at hqd
      obtain ⟨hni, hrest⟩ := hqd
      subst hni
      subst hrest
      rcases hns : b.states[b.iters]? with _ | ns
      · rw [hns] at h; simp at h
      · rw [hns] at h
        dsimp only at h
        rcases hcw : check_win_solve beds ns with _ | wb
        · rw [hcw] at h; simp at h
        · rw [hcw] at h
          cases wb
          · -- win check false: keep searching
            dsimp only at h
            by_cases hmi : b.iters + 1 = mi
            · rw [if_pos hmi] at h
              simp at h
            · rw [if_neg hmi] at h
              rcases hdl : lookup_nat b.depths b.iters with _ | dcur
              · rw [hdl] at h; simp at h
              · rw [hdl] at h
                dsimp only at h
                by_cases hdm : dcur = mm
                · rw [if_pos hdm] at h
                  exact ih _ w b'
                    (dequeue_capped_inv board beds mm fm start b inv hlt ns hns hcw
                      dcur hdl hdm) h
                · rw [if_neg hdm] at h
                  rcases hE1 : expand_dir board fm ns b.iters dcur Move.up
                      { b with queue := (List.range b.states.length).drop (b.iters + 1), iters := b.iters + 1 }
                      with _ | bU
                  · rw [hE1] at h; simp at h
                  · rw [hE1] at h
                    dsimp only [Option.bind] at h
                    rcases hE2 : expand_dir board fm ns b.iters dcur Move.down bU
                        with _ | bD
                    · rw [hE2] at h; simp at h
                    · rw [hE2] at h
                      dsimp only [Option.bind] at h
                      rcases hE3 : expand_dir board fm ns b.iters dcur Move.left bD
                          with _ | bL
                      · rw [hE3] at h; simp at h
                      · rw [hE3] at h
                        dsimp only [Option.bind] at h
                        rcases hE4 : expand_dir board fm ns b.iters dcur Move.right bL
                            with _ | bR
                        · rw [hE4] at h; simp at h
                        · rw [hE4] at h
                          dsimp only at h
                          exact ih bR w b'
                            (expand_quad_inv board beds mm fm start b inv hlt ns hns
                              hcw dcur hdl hdm bU bD bL bR hE1 hE2 hE3 hE4) h
          · -- win check true: stop
            dsimp only at h
            simp only [Option.some.injEq, Prod.mk.injEq] at h
            obtain ⟨hw, hb'⟩ := h
            subst hw
            subst hb'
            refine ⟨inv.hstart, inv.hdepth0, inv.hparent0, ?_, inv.hparenttotal,
              inv.hedge, inv.hmono, inv.hcap, inv.hdepthtotal, hlt,
              ⟨ns, hns, hcw⟩, ?_, ?_⟩
            · intro p hp
              obtain ⟨a1, a2, a3, _⟩ := inv.hparentkeys p hp
              exact ⟨a1, a2, a3⟩
            · intro i hi
              exact inv.hwinfalse i hi
            · intro i hi d hd hdnm si hsi m
              exact inv.hexpand i hi d hd hdnm si hsi m

/-- The invariant holds for the solver's seeded working data. -/
theorem init_inv (board : Board) (beds : List Bunny) (mm fm : Nat)
    (start : List Bunny) :
    Inv board beds mm fm start
      { states := [start], visited := [(start, 0)], queue := [0],
        parents := [], depths := [(0, 1)], iters := 0 } := by
  refine ⟨by simp, rfl, rfl, Nat.zero_le _, fun _ => rfl, rfl, ?_, ?_,
    rfl, ?_, ?_, ?_, ?_, ?_, ?_, ?_, ?_, ?_⟩
  · intro p hp
    simp only [List.mem_singleton] at hp
    subst hp
    simp
  · intro i hi
    simp only [List.length_singleton] at hi
    have hi0 : i = 0 := by omega
    subst hi0
    exact ⟨1, rfl⟩
  · intro p hp
    simp at hp
  · intro i h1 h2
    simp only [List.length_singleton] at h2
    omega
  · intro i q hq
    simp [lookup_nat] at hq
  · intro i j di dj _ hdi hdj
    have h1 := lookup_nat_mem _ _ _ hdi
    have h2 := lookup_nat_mem _ _ _ hdj
    simp only [List.mem_singleton, Prod.mk.injEq] at h1 h2
    omega
  · intro hmm i d hd
    have h1 := lookup_nat_mem _ _ _ hd
    simp only [List.mem_singleton, Prod.mk.injEq] at h1
    omega
  · intro i hi
    simp at hi
  · intro i hi
    simp at hi
  · intro key idx hmem
    simp only [List.mem_singleton, Prod.mk.injEq] at hmem
    obtain ⟨h1, h2⟩ := hmem
    subst h1
    subst h2
    exact ⟨by simp, rfl⟩
  · intro hz
    simp at hz

/-- Characterization of the reconstructed path: following the parent chain
from a discovered index yields a reversed root-to-node path whose head is the
start vector, whose last element is the node's vector, whose consecutive
entries are legal player moves, and whose length is the node's depth. -/
theorem reconstruct_spec
    (board : Board) (fm : Nat) (start : List Bunny)
    (states : List (List Bunny)) (parents depths : List (Nat × Nat))
    (hstart : states[0]? = some start)
    (hdepth0 : lookup_nat depths 0 = some 1)
    (hparentkeys : ∀ p ∈ parents, 1 ≤ p.1 ∧ p.1 < states.length ∧ p.2 < p.1)
    (hparenttotal : ∀ i : Nat, 1 ≤ i → i < states.length →
      ∃ q, lookup_nat parents i = some q)
    (hedge : ∀ i q : Nat, lookup_nat parents i = some q →
      ∃ sp si dq, states[q]? = some sp ∧ states[i]? = some si ∧
        lookup_nat depths q = some dq ∧ lookup_nat depths i = some (dq + 1) ∧
        ∃ m, move_bunny_solve board fm sp PLAYER_INDEX m = some (some si)) :
    ∀ w : Nat, ∀ (sw : List Bunny) (dw fuel : Nat) (acc : List (List Bunny)),
      states[w]? = some sw → lookup_nat depths w = some dw → w < fuel →
      ∃ tail, reconstruct_path states parents fuel w (acc ++ [sw]) =
          some ((acc ++ [sw]) ++ tail) ∧
        (([sw] ++ tail).reverse).head? = some start ∧
        (([sw] ++ tail).reverse).getLast? = some sw ∧
        List.Chain' (fun a c => ∃ m, move_bunny_solve board fm a PLAYER_INDEX m
          = some (some c)) (([sw] ++ tail).reverse) ∧
        ([sw] ++ tail).length = dw := by
  intro w
  induction w using Nat.strong_induction_on with
  | _ w ihw =>
    intro sw dw fuel acc hsw hdw hfuel
    obtain ⟨f, rfl⟩ : ∃ f, fuel = f + 1 := ⟨fuel - 1, by omega⟩
    rw [reconstruct_path]
    rcases hp : lookup_nat parents w with _ | p
    · have hw0 : w = 0 := by
        by_contra hw
        obtain ⟨q, hq⟩ := hparenttotal w (by omega) (getElem?_some_lt hsw)
        rw [hp] at hq
        simp at hq
      subst hw0
      have hswst : sw = start := by
        rw [hstart] at hsw
        simpa using hsw.symm
      have hdw1 : dw = 1 := by
        rw [hdepth0] at hdw
        simpa using hdw.symm
      subst hswst
      subst hdw1
      refine ⟨[], by rw [List.append_nil], ?_, ?_, ?_, ?_⟩
      · simp
      · simp
      · simp
      · simp
    · obtain ⟨sp, si, dq, hsp, hsi, hdq, hdi, m, hm⟩ := hedge w p hp
      have hsisw : si = sw := by
        rw [hsw] at hsi
        simpa using hsi.symm
      rw [hsisw] at hm
      have hdwp : dw = dq + 1 := by
        rw [hdw] at hdi
        simpa using hdi
      have hpk := hparentkeys (w, p) (lookup_nat_mem _ _ _ hp)
      dsimp only
      rw [hsp]
      dsimp only
      obtain ⟨tailp, hrec, hhead, hlast, hchain, hlenp⟩ :=
        ihw p hpk.2.2 sp dq f (acc ++ [sw]) hsp hdq (by omega)
      refine ⟨[sp] ++ tailp, ?_, ?_, ?_, ?_, ?_⟩
      · rw [hrec, List.append_assoc]
      · rw [List.reverse_append]
        rcases hX : ([sp] ++ tailp).reverse with _ | ⟨x, xs⟩
        · rw [hX] at hhead
          simp at hhead
        · rw [hX] at hhead
          simp only [List.head?_cons, Option.some.injEq] at hhead
          simp [hhead]
      · rw [List.reverse_append]
        simp only [List.reverse_singleton]
        exact List.getLast?_concat _
      · rw [List.reverse_append]
        simp only [List.reverse_singleton]
        refine List.chain'_append.2 ⟨hchain, List.chain'_singleton sw, ?_⟩
        intro x hx y hy
        rw [hlast] at hx
        simp only [Option.mem_def, Option.some.injEq] at hx
        simp only [List.head?_cons, Option.mem_def, Option.some.injEq] at hy
        subst hx
        subst hy
        exact ⟨m, hm⟩
      · simp only [List.length_append, List.length_singleton] at hlenp ⊢
        omega

/-- `Reaches board start k t`: `t` is reachable from `start` by `k`
successful pure player moves. -/
inductive Reaches (board : Board) (start : List Bunny) : Nat → List Bunny → Prop
  | refl : Reaches board start 0 start
  | snoc (k : Nat) (u t : List Bunny) (f : Nat) (m : Move) :
      Reaches board start k u →
      move_bunny_solve board f u PLAYER_INDEX m = some (some t) →
      Reaches board start (k + 1) t

/-- Breadth-first discovery: any vector reachable in `k` moves, with
`k + 1` strictly below the winner's depth, is discovered at depth at most
`k + 1`. -/
theorem win_discovery
    (board : Board) (beds : List Bunny) (mm fm : Nat) (start : List Bunny)
    (w : Nat) (b' : BfsState)
    (W : WinOut board beds mm fm start w b')
    (dw : Nat) (hdw : lookup_nat b'.depths w = some dw) :
    ∀ (k : Nat) (t : List Bunny), Reaches board start k t → k + 1 < dw →
      ∃ j dj, b'.states[j]? = some t ∧ lookup_nat b'.depths j = some dj ∧
        dj ≤ k + 1 := by
  intro k t hr
  induction hr with
  | refl =>
    intro _
    exact ⟨0, 1, W.hstart, W.hdepth0, Nat.le_refl 1⟩
  | snoc k u t f m hru hmv ih =>
    intro hb
    obtain ⟨ju, dju, hju, hdju, hbju⟩ := ih (by omega)
    have hjult : ju < w := by
      by_contra hc
      have := W.hmono w ju dw dju (by omega) hdw hdju
      omega
    have hmm_ne : dju ≠ mm := by
      rcases Nat.eq_zero_or_pos mm with hz | hpos
      · have h1 : 1 ≤ dju := W.hmono 0 ju 1 dju (Nat.zero_le ju) W.hdepth0 hdju
        omega
      · have hc1 := W.hcap hpos w dw hdw
        omega
    obtain ⟨r, hrmv, hdisc⟩ := W.hexpand ju hjult dju hdju hmm_ne u hju m
    have hrt : r = some t := move_bunny_solve_det hrmv hmv
    obtain ⟨j, dj, hj1, hj2, hj3⟩ := hdisc t hrt
    exact ⟨j, dj, hj1, hj2, by omega⟩

/-- The full characterization of a successful `solve` call. -/
theorem solve_success_spec (s : State) (mm mi fl fm : Nat)
    (path : List (List Bunny)) (st : SolveStats)
    (h : solve s mm mi fl fm = some (some (path, st))) :
    ∃ (w : Nat) (b' : BfsState) (sw : List Bunny) (dw : Nat),
      WinOut s.board s.beds mm fm s.bunnies w b' ∧
      b'.states[w]? = some sw ∧ lookup_nat b'.depths w = some dw ∧
      path.head? = some s.bunnies ∧
      path.getLast? = some sw ∧ check_win_solve s.beds sw = some true ∧
      List.Chain' (fun a c => ∃ m, move_bunny_solve s.board fm a PLAYER_INDEX m
        = some (some c)) path ∧
      path.length = dw := by
  rw [solve] at h
  rcases hloop : solve_loop s.board s.beds mm mi fm fl
      { states := [s.bunnies], visited := [(s.bunnies, 0)], queue := [0],
        parents := [], depths := [(0, 1)], iters := 0 } with _ | ⟨res, b2⟩
  · rw [hloop] at h; simp at h
  · rw [hloop] at h
    rcases res with _ | w
    · simp at h
    · dsimp only at h
      rcases hws : b2.states[w]? with _ | sw
      · rw [hws] at h; simp at h
      · rw [hws] at h
        dsimp only at h
        have W : WinOut s.board s.beds mm fm s.bunnies w b2 :=
          solve_loop_win s.board s.beds mm mi fm s.bunnies fl _ w b2
            (init_inv s.board s.beds mm fm s.bunnies) hloop
        obtain ⟨dw, hdw⟩ := W.hdepthtotal w W.hwlt
        obtain ⟨tail, hrec, hhead, hlast, hchain, hlen⟩ :=
          reconstruct_spec s.board fm s.bunnies b2.states b2.parents b2.depths
            W.hstart W.hdepth0 W.hparentkeys W.hparenttotal W.hedge
            w sw dw (b2.states.length + 1) [] hws hdw (by
              have := W.hwlt
              omega)
        simp only [List.nil_append] at hrec
        rw [hrec] at h
        dsimp only at h
        simp only [Option.some.injEq, Prod.mk.injEq] at h
        obtain ⟨hpath, hstats⟩ := h
        obtain ⟨swin, hswin, hwin⟩ := W.hwin
        have hsw2 : swin = sw := by
          rw [hws] at hswin
          simpa using hswin.symm
        subst hsw2
        refine ⟨w, b2, swin, dw, W, hws, hdw, ?_, ?_, hwin, ?_, ?_⟩
        · rw [← hpath]
          exact hhead
        · rw [← hpath]
          exact hlast
        · rw [← hpath]
          exact hchain
        · rw [← hpath, List.length_reverse]
          exact hlen

/-- Claim C3 (amended: the move-count bound requires `max_moves ≥ 1`, since
with `max_moves = 0` the depth cap `depth == max_moves` never fires — see the
counterexample): every path returned by `solve` starts at the starting
entity vector, each consecutive pair is one successful pure player move, the
final vector satisfies the win predicate, and — when `max_moves ≥ 1` — the
number of moves is at most `max_moves`. -/
theorem claim3_solver_sound (s : State) (mm mi fl fm : Nat)
    (path : List (List Bunny)) (st : SolveStats)
    (h : solve s mm mi fl fm = some (some (path, st))) :
    path.head? = some s.bunnies ∧
      List.Chain' (fun a c => ∃ m, move_bunny_solve s.board fm a PLAYER_INDEX m
        = some (some c)) path ∧
      (∃ last_state, path.getLast? = some last_state ∧
        check_win_solve s.beds last_state = some true) ∧
      (1 ≤ mm → path.length - 1 ≤ mm) := by
  obtain ⟨w, b', sw, dw, W, hws, hdw, hhead, hlast, hwin, hchain, hlen⟩ :=
    solve_success_spec s mm mi fl fm path st h
  refine ⟨hhead, hchain, ⟨sw, hlast, hwin⟩, ?_⟩
  intro hmm
  have hcap := W.hcap hmm w dw hdw
  omega

/-- Witness for C3's amended theorem on the corridor level. -/
theorem claim3_witness :
    ([[(1, 1), (1, 2)], [(1, 2), (1, 3)]] : List (List Bunny)).head? =
        some corridor_state.bunnies ∧
      List.Chain' (fun a c => ∃ m, move_bunny_solve corridor_state.board 5 a
        PLAYER_INDEX m = some (some c)) [[(1, 1), (1, 2)], [(1, 2), (1, 3)]] ∧
      (∃ last_state, ([[(1, 1), (1, 2)], [(1, 2), (1, 3)]] :
          List (List Bunny)).getLast? = some last_state ∧
        check_win_solve corridor_state.beds last_state = some true) ∧
      (1 ≤ 5 → ([[(1, 1), (1, 2)], [(1, 2), (1, 3)]] :
          List (List Bunny)).length - 1 ≤ 5) :=
  claim3_solver_sound corridor_state 5 100 50 5
    [[(1, 1), (1, 2)], [(1, 2), (1, 3)]] ⟨2, 0⟩ (by decide)

/-- Claim C4 (amended: whenever `solve` returns a path, it has minimum move
count — no strictly shorter sequence of legal player moves reaches a winning
vector; `solve` may return no solution even for states solvable in exactly
`max_moves` moves, since vectors at depth `max_moves` are not expanded — see
the counterexample): a returned path's length is at most `k + 1` for any
winning vector reachable in `k` moves. -/
theorem claim4_returned_minimal (s : State) (mm mi fl fm : Nat)
    (path : List (List Bunny)) (st : SolveStats)
    (h : solve s mm mi fl fm = some (some (path, st)))
    (k : Nat) (t : List Bunny) (hr : Reaches s.board s.bunnies k t)
    (hwin : check_win_solve s.beds t = some true) :
    path.length ≤ k + 1 := by
  obtain ⟨w, b', sw, dw, W, hws, hdw, hhead, hlast, hwinw, hchain, hlen⟩ :=
    solve_success_spec s mm mi fl fm path st h
  by_contra hc
  push_neg at hc
  rw [hlen] at hc
  obtain ⟨j, dj, hj1, hj2, hj3⟩ :=
    win_discovery s.board s.beds mm fm s.bunnies w b' W dw hdw k t hr hc
  have hjw : j < w := by
    by_contra hcw
    have := W.hmono w j dw dj (by omega) hdw hj2
    omega
  obtain ⟨sj, hsj, hwf⟩ := W.hwinfalse j hjw
  rw [hj1] at hsj
  simp only [Option.some.injEq] at hsj
  rw [← hsj] at hwf
  rw [hwin] at hwf
  simp at hwf

/-- Witness for C4's amended theorem: the corridor's returned two-vector path
is minimal against the one-move winning sequence. -/
theorem claim4_witness :
    ([[(1, 1), (1, 2)], [(1, 2), (1, 3)]] : List (List Bunny)).length ≤ 1 + 1 :=
  claim4_returned_minimal corridor_state 5 100 50 5
    [[(1, 1), (1, 2)], [(1, 2), (1, 3)]] ⟨2, 0⟩ (by decide) 1 [(1, 2), (1, 3)]
    (Reaches.snoc 0 corridor_state.bunnies [(1, 2), (1, 3)] 3 Move.right
      Reaches.refl (by decide))
    (by decide)

end Sokoban
